import Mathlib

/-
Verification development for the jina-crawler repository (src/src/index.ts).

The source is shallowly embedded below.  Strings are represented as
`List Char` (named `Str`); JavaScript `URL` objects are represented by the
`JsUrl` structure together with a parser and a reference resolver covering
the well-formed http/https URLs exercised here.  The crawl orchestrator,
request scheduler and filesystem are modelled as an explicit state machine
with a fuelled driver loop standing in for the scheduler's drain loop.
-/

namespace Crawler

/-- JavaScript strings are modelled as lists of characters. -/
abbrev Str := List Char

/-- `takeUntil stop s` splits `s` at the first occurrence of `stop`:
the first component is the maximal prefix free of `stop`, the second the
remaining suffix (starting with `stop` when `stop` occurs). -/
def takeUntil (stop : Char) : Str → Str × Str
  | [] => ([], [])
  | c :: cs =>
    if c = stop then ([], c :: cs)
    else
      let p := takeUntil stop cs
      (c :: p.1, p.2)

/-- `takeUntilP p s` splits `s` at the first character satisfying `p`. -/
def takeUntilP (p : Char → Bool) : Str → Str × Str
  | [] => ([], [])
  | c :: cs =>
    if p c then ([], c :: cs)
    else
      let q := takeUntilP p cs
      (c :: q.1, q.2)

/-- A parsed JavaScript `URL` object restricted to the fields the crawler reads:
protocol scheme (without colon), host (including any port), pathname, search
(with leading `?` when non-empty) and hash (with leading `#` when non-empty). -/
structure JsUrl where
  scheme : Str
  host : Str
  pathname : Str
  search : Str
  hash : Str
deriving DecidableEq, Repr

/-- `URL.origin`: `scheme + "://" + host`. -/
def JsUrl.origin (u : JsUrl) : Str := u.scheme ++ (":" ++ "//").toList ++ u.host

/-- `URL.href` (serialization). -/
def JsUrl.href (u : JsUrl) : Str := u.origin ++ u.pathname ++ u.search ++ u.hash

/-- The WHATWG remove-dot-segments step over the path segments following the
leading slash: `.` is dropped, `..` pops the previous segment, and a final `.`
or `..` leaves a trailing empty segment (a trailing slash). -/
def rdsAux : List Str → List Str → List Str
  | acc, [] => acc.reverse
  | acc, seg :: rest =>
    if seg = ['.'] then
      if rest = [] then acc.reverse ++ [[]] else rdsAux acc rest
    else if seg = ['.', '.'] then
      if rest = [] then (acc.drop 1).reverse ++ [[]] else rdsAux (acc.drop 1) rest
    else rdsAux (seg :: acc) rest

/-- Normalize a URL pathname beginning with `/`: resolve `.` and `..` segments,
keeping empty segments (a JS `URL` pathname keeps `//`). -/
def urlNormPath (p : Str) : Str :=
  if p.take 1 = ['/'] then
    '/' :: List.intercalate ['/'] (rdsAux [] ((p.drop 1).splitOn '/'))
  else p

/-- Parser for absolute `http`/`https` URL strings, producing the `JsUrl`
fields read by the crawler.  Matches the JS `URL` constructor on the
well-formed URLs exercised in this development (no percent-encoding, default
ports or host case-folding). -/
def parseUrl (s : Str) : Option JsUrl :=
  let parseRest (scheme rest : Str) : Option JsUrl :=
    let hsplit := takeUntilP (fun c => c = '/' || c = '?' || c = '#') rest
    if hsplit.1 = [] then none
    else
      let psplit := takeUntilP (fun c => c = '?' || c = '#') hsplit.2
      let qsplit := takeUntil '#' psplit.2
      some ⟨scheme, hsplit.1,
        urlNormPath (if psplit.1 = [] then ['/'] else psplit.1), qsplit.1, qsplit.2⟩
  if s.take 8 = ("https://").toList then parseRest ("https").toList (s.drop 8)
  else if s.take 7 = ("http://").toList then parseRest ("http").toList (s.drop 7)
  else none

/-- Split a reference string into path part, search and hash. -/
def splitRef (r : Str) : Str × Str × Str :=
  let ps := takeUntilP (fun c => c = '?' || c = '#') r
  let qs := takeUntil '#' ps.2
  (ps.1, qs.1, qs.2)

/-- The prefix of `p` up to and including its last `/` (the directory of a
URL pathname). -/
def dirOf (p : Str) : Str := ((takeUntil '/' p.reverse).2).reverse

/-- `new URL(link, base)` for an already-parsed base: absolute links parse on
their own; otherwise the link is resolved against the base per the WHATWG
rules for the forms exercised here (protocol-relative, path-absolute,
fragment-only, query-only and path-relative references). -/
def resolveUrl (link : Str) (base : JsUrl) : Option JsUrl :=
  match parseUrl link with
  | some u => some u
  | none =>
    if link.take 2 = ['/', '/'] then parseUrl (base.scheme ++ [':'] ++ link)
    else
      match link with
      | [] => some { base with hash := [] }
      | '#' :: _ => some { base with hash := link }
      | '?' :: _ =>
        let qs := takeUntil '#' link
        some { base with search := qs.1, hash := qs.2 }
      | '/' :: _ =>
        let r := splitRef link
        some { base with pathname := urlNormPath r.1, search := r.2.1, hash := r.2.2 }
      | _ =>
        let r := splitRef link
        some { base with pathname := urlNormPath (dirOf base.pathname ++ r.1), search := r.2.1, hash := r.2.2 }

/-- `s.replace(/\/$/, '')`: strip one trailing slash. -/
def stripTrailingSlash (p : Str) : Str :=
  if p.getLast? = some '/' then p.dropLast else p

/-- `s.startsWith(pre)` on our string representation. -/
def strStartsWith (pre s : Str) : Bool := s.take pre.length = pre

/-- Embeds `isUrlInScope` (src/src/index.ts lines 320-340) on parsed URL
objects: same origin, and the url path equals the base path, or extends it
past a `/`, or the base path is empty (root) and the url path starts with `/`.
Both paths first have a single trailing slash stripped
(`.replace(/\/$/, '')`). -/
def isUrlInScope (urlObj baseUrlObj : JsUrl) : Bool :=
  if urlObj.origin ≠ baseUrlObj.origin then false
  else
    let basePath := stripTrailingSlash baseUrlObj.pathname
    let urlPath := stripTrailingSlash urlObj.pathname
    (urlPath = basePath) || strStartsWith (basePath ++ ['/']) urlPath
      || (basePath = [] && strStartsWith ['/'] urlPath)

/-- Consume one expected character from the front of a string. -/
def expectChar (c : Char) : Str → Option Str
  | [] => none
  | x :: xs => if x = c then some xs else none

/-- Match of the image regex `!\[[^\]]*\]\([^)]*\)` anchored at the start of
`s`: a `!` and `[`, a label free of `]`, then `](`, a target free of `)`,
then `)`.  Returns the suffix after the match. -/
def matchImageAt (s : Str) : Option Str := do
  let s1 ← expectChar '!' s
  let s2 ← expectChar '[' s1
  let s3 ← expectChar ']' (takeUntil ']' s2).2
  let s4 ← expectChar '(' s3
  let s5 ← expectChar ')' (takeUntil ')' s4).2
  pure s5

/-- Fuelled scanner for `content.replace(/!\[[^\]]*\]\([^)]*\)/g, '')`: scan
left to right, deleting every match of the image construct.  Every step
consumes at least one character, so fuel `s.length` always suffices. -/
def removeImagesF : Nat → Str → Str
  | _, [] => []
  | 0, s => s
  | fuel + 1, c :: cs =>
    match matchImageAt (c :: cs) with
    | some rest => removeImagesF fuel rest
    | none => c :: removeImagesF fuel cs

/-- `content.replace(/!\[[^\]]*\]\([^)]*\)/g, '')`. -/
def removeImages (s : Str) : Str := removeImagesF s.length s

/-- Match of the link regex `\[[^\]]*\]\((.*?)\)` anchored at the start of
`s`: a `[`, a label free of `]`, then `](`, then the lazily captured target
up to the first `)` (the lazy dot does not cross a newline), then `)`.
Returns the captured target and the suffix after the match. -/
def matchLinkAt (s : Str) : Option (Str × Str) := do
  let s1 ← expectChar '[' s
  let s2 ← expectChar ']' (takeUntil ']' s1).2
  let s3 ← expectChar '(' s2
  let ts := takeUntilP (fun ch => ch = ')' || ch = '\n') s3
  let s4 ← expectChar ')' ts.2
  pure (ts.1, s4)

/-- Fuelled scanner collecting all captures of the global link regex,
scanning left to right and continuing after each match. -/
def extractRawLinksF : Nat → Str → List Str
  | _, [] => []
  | 0, _ => []
  | fuel + 1, c :: cs =>
    match matchLinkAt (c :: cs) with
    | some p => p.1 :: extractRawLinksF fuel p.2
    | none => extractRawLinksF fuel cs

/-- All captures of the global link regex `\[[^\]]*\]\((.*?)\)`. -/
def extractRawLinks (s : Str) : List Str := extractRawLinksF s.length s

/-- Fuelled first-occurrence de-duplication.  Each step shortens the list,
so fuel `l.length` always suffices. -/
def dedupFirstF : Nat → List Str → List Str
  | _, [] => []
  | 0, l => l
  | fuel + 1, x :: xs => x :: dedupFirstF fuel (xs.filter (fun y => decide (y ≠ x)))

/-- `Array.from(new Set(urls))`: deduplicate keeping first occurrences in
insertion order. -/
def dedupFirst (l : List Str) : List Str := dedupFirstF l.length l

/-- The shared per-link step of both extractors: resolve the raw link against
the current page URL (`new URL(link, currentUrl).href`) and keep it when
`isUrlInScope(absoluteUrl, baseUrl)`; any parse failure is caught and the
link is skipped. -/
def processLink (currentUrl baseUrl : Str) (link : Str) : Option Str :=
  match parseUrl currentUrl with
  | none => none
  | some cur =>
    match resolveUrl link cur with
    | none => none
    | some abs =>
      match parseUrl baseUrl with
      | none => none
      | some b => if isUrlInScope abs b then some abs.href else none

/-- Embeds `extractLinks` (src/src/index.ts lines 342-366): remove image
constructs, harvest `[label](target)` captures, resolve each against the
current page URL, keep the in-scope ones and deduplicate. -/
def extractLinks (content : Str) (currentUrl baseUrl : Str) : List Str :=
  dedupFirst ((extractRawLinks (removeImages content)).filterMap (processLink currentUrl baseUrl))

/-- The image extensions excluded by `extractLinksFromHtml`. -/
def htmlImageExts : List Str :=
  [("jpg").toList, ("jpeg").toList, ("png").toList, ("gif").toList,
   ("bmp").toList, ("webp").toList, ("svg").toList, ("ico").toList]

/-- `s.endsWith(suf)` on our string representation. -/
def strEndsWith (suf s : Str) : Bool := s.reverse.take suf.length = suf.reverse

/-- The test `/\.(?:jpg|jpeg|png|gif|bmp|webp|svg|ico)$/i.test(href)`:
case-insensitive match anchored at the end of the raw href string. -/
def isImageHref (href : Str) : Bool :=
  htmlImageExts.any (fun e => strEndsWith ('.' :: e) (href.map Char.toLower))

/-- Embeds `extractLinksFromHtml` (src/src/index.ts lines 368-394).  The DOM
walk that harvests the `href` attributes of anchor elements is an external
collaborator (node-html-parser) and is passed as the `hrefsOf` oracle; the
filtering pipeline — drop hrefs ending in an image extension, resolve against
the current page URL, keep in-scope ones, deduplicate — is embedded from the
source. -/
def extractLinksFromHtml (hrefsOf : Str → List Str) (content : Str)
    (currentUrl baseUrl : Str) : List Str :=
  dedupFirst (((hrefsOf content).filter (fun h => ¬ isImageHref h)).filterMap
    (processLink currentUrl baseUrl))

/-- Modelled from the spec: `normalizeUrl` is exported by src/index.ts and
exercised by the repository's test suite, but its definition is not among the
provided sources.  Per spec §4.1 it strips the fragment unless the fragment
contains a `/` (then the URL is returned unchanged); an empty fragment (`#`
with nothing after) is stripped; unparseable input falls back to naive
truncation at the first `#`. -/
def normalizeUrl (url : Str) : Str :=
  let p := takeUntil '#' url
  match p.2 with
  | [] => url
  | _ :: frag => if '/' ∈ frag then url else p.1

/-- The non-document file extensions listed in spec §4.1 for `shouldCrawlUrl`:
archives, office documents, executables, video and audio. -/
def downloadExts : List Str :=
  [("zip").toList, ("rar").toList, ("7z").toList, ("tar").toList, ("gz").toList,
   ("bz2").toList, ("xz").toList,
   ("pdf").toList, ("doc").toList, ("docx").toList, ("xls").toList, ("xlsx").toList,
   ("ppt").toList, ("pptx").toList, ("odt").toList, ("ods").toList, ("odp").toList,
   ("exe").toList, ("dmg").toList, ("pkg").toList, ("deb").toList, ("rpm").toList,
   ("msi").toList, ("apk").toList,
   ("mp4").toList, ("avi").toList, ("mov").toList, ("wmv").toList, ("flv").toList,
   ("mkv").toList, ("webm").toList,
   ("mp3").toList, ("wav").toList, ("ogg").toList, ("flac").toList, ("aac").toList,
   ("m4a").toList]

/-- Modelled from the spec: `shouldCrawlUrl` is exported by src/index.ts and
exercised by the repository's test suite, but its definition is not among the
provided sources.  Per spec §4.1 it fails closed (false) for non-http/https
schemes and for URLs that do not parse as absolute URLs, and rejects any URL
whose path ends, case-insensitively, in a known non-document extension
(query/hash excluded); every other http/https URL passes. -/
def shouldCrawlUrl (url : Str) : Bool :=
  match parseUrl url with
  | none => false
  | some u =>
    (u.scheme == ("http").toList || u.scheme == ("https").toList)
      && !(downloadExts.any (fun e => strEndsWith ('.' :: e) (u.pathname.map Char.toLower)))

/-- node `path.posix` `..`-resolution over already-filtered segments
(no empty and no `.` segments): `..` pops the previous segment, is dropped at
the root of an absolute path, and is kept at the front of a relative path. -/
def pnAux (isAbs : Bool) : List Str → List Str → List Str
  | acc, [] => acc.reverse
  | acc, seg :: rest =>
    if seg = ['.', '.'] then
      match acc with
      | [] => if isAbs then pnAux isAbs [] rest else pnAux isAbs [seg] rest
      | t :: ts =>
        if t = ['.', '.'] then pnAux isAbs (seg :: acc) rest else pnAux isAbs ts rest
    else pnAux isAbs (seg :: acc) rest

/-- node `path.posix.normalize` for the inputs exercised here: collapse `//`,
drop `.`, resolve `..`, keep a leading and a meaningful trailing slash. -/
def pathNormalize (s : Str) : Str :=
  if s = [] then ['.']
  else
    let isAbs := s.take 1 = ['/']
    let hasTrail := s.getLast? = some '/'
    let segs := pnAux isAbs [] ((s.splitOn '/').filter (fun x => decide (x ≠ [] ∧ x ≠ ['.'])))
    let out := (if isAbs then ['/'] else []) ++ List.intercalate ['/'] segs
      ++ (if hasTrail ∧ segs ≠ [] then ['/'] else [])
    if out = [] then ['.'] else out

/-- node `path.posix.join`: join the non-empty parts with `/` and normalize. -/
def pathJoin (parts : List Str) : Str :=
  let joined := List.intercalate ['/'] (parts.filter (fun p => decide (p ≠ [])))
  if joined = [] then ['.'] else pathNormalize joined

/-- node `path.posix.dirname`: everything before the last segment (trailing
slashes ignored); `.` when there is no directory part, `/` for the root. -/
def dirname (s : Str) : Str :=
  if s = [] then ['.']
  else
    let r2 := (s.reverse.dropWhile (fun c => decide (c = '/'))).dropWhile
      (fun c => decide (c ≠ '/'))
    let res := (r2.drop 1).reverse
    if res = [] then (if s.take 1 = ['/'] then ['/'] else ['.']) else res

/-- node `path.posix.basename`: the last segment, trailing slashes ignored. -/
def basename (s : Str) : Str :=
  ((s.reverse.dropWhile (fun c => decide (c = '/'))).takeWhile
    (fun c => decide (c ≠ '/'))).reverse

/-- `s.replace(/^\//, '')`: strip one leading slash. -/
def stripLeadingSlash (p : Str) : Str := if p.take 1 = ['/'] then p.drop 1 else p

/-- Embeds `getFilePath` (src/src/index.ts lines 448-455): the artifact path
is `path.join('./docs', name, dirname(rel))` plus `basename(rel) + '.md'`,
where `rel` is `path.join(baseUrl.pathname, url.pathname)` with one leading
slash stripped; an empty basename (the root) becomes `index`.  `none` models
the `new URL` constructor throwing on malformed input. -/
def getFilePath (name baseUrl url : Str) : Option Str := do
  let baseUrlObj ← parseUrl baseUrl
  let urlObj ← resolveUrl url baseUrlObj
  let relativePath := stripLeadingSlash (pathJoin [baseUrlObj.pathname, urlObj.pathname])
  let dir := pathJoin [("./docs").toList, name, dirname relativePath]
  let filename := if basename relativePath = [] then ("index").toList else basename relativePath
  pure (pathJoin [dir, filename ++ (".md").toList])

/-- The filesystem, modelled as an association list from file paths to file
contents (directory creation has no observable effect on the properties
verified here). -/
abbrev Fs := List (Str × Str)

def fsGet (fs : Fs) (p : Str) : Option Str := (fs.find? (fun e => e.1 == p)).map (·.2)

/-- Embeds `saveContent` (src/src/index.ts lines 284-312): compute the
artifact path (the source repeats, verbatim, the same `relativePath`,
`dirname`, `basename` computation as `getFilePath`), then write the content
unless a file already exists at that path. -/
def saveContent (name baseUrl url content : Str) (fs : Fs) : Fs :=
  match getFilePath name baseUrl url with
  | none => fs
  | some filePath =>
    match fsGet fs filePath with
    | some _ => fs
    | none => (filePath, content) :: fs

/-- The run configuration and external collaborators of a crawl run:
the proxy fetch (`fetchContent`, `none` = network error or non-2xx, which
`got` raises as an exception), the direct fetch (`fetchOriginalContent`),
the DOM href harvest used by `extractLinksFromHtml`, and the run parameters
of `startCrawling`. -/
structure Cfg where
  fetchMd : Str → Option Str
  fetchHtml : Str → Option Str
  hrefsOf : Str → List Str
  name : Str
  baseUrl : Str
  maxDepth : Nat

/-- A scheduled job: the closure passed to `requestScheduler.addRequest`
captures the target URL and its depth. -/
structure Job where
  url : Str
  depth : Nat
deriving DecidableEq, Repr

/-- Ghost log entry: which network fetches a run performed. -/
inductive FetchEv where
  | primary (url : Str)
  | secondary (url : Str)
deriving DecidableEq, Repr

/-- The crawl-run state: the visited set (insertion order kept), the
filesystem, the scheduler queue and running flag, plus two ghost logs (all
jobs ever submitted, all fetches ever attempted) used to state properties. -/
structure St where
  visited : List Str
  fsys : Fs
  queue : List Job
  isRunning : Bool
  submitted : List Job
  fetches : List FetchEv

/-- `requestScheduler.addRequest`: append the job to the queue (the re-entrant
`processQueue` call is a no-op while the drain loop runs; draining is the
`drainQueue` function below). -/
def addRequest (j : Job) (st : St) : St :=
  { st with queue := st.queue ++ [j], submitted := st.submitted ++ [j] }

/-- `visited.add(url)` (insertion order kept). -/
def markVisited (url : Str) (st : St) : St :=
  { st with visited := st.visited ++ [url] }

/-- Embeds `crawl` (src/src/index.ts lines 396-446), structurally recursive
on `gas`, which the wrapper `crawl` below fixes to `cfg.maxDepth + 1 - depth`
(an upper bound on the remaining recursion depth, so the `gas = 0` fallback
inside the artifact branch is unreachable through the wrapper): return if the
depth bound is exceeded or the URL was already visited; otherwise mark
visited — the raw `url` string is used for the membership check and the
insertion, exactly as in the source — and either re-parse an existing
artifact for links and recurse on them at `depth + 1`
(`await Promise.all(links.map(...))`, whose synchronous prefixes run in list
order, i.e. a fold), or submit a fetch job to the scheduler. -/
def crawlG (cfg : Cfg) : Nat → Str → Nat → St → St
  | gas, url, depth, st =>
    if depth > cfg.maxDepth ∨ url ∈ st.visited then st
    else
      match getFilePath cfg.name cfg.baseUrl url with
      | none => markVisited url st
      | some filePath =>
        match fsGet st.fsys filePath with
        | some content =>
          match gas with
          | 0 => markVisited url st
          | g + 1 =>
            (extractLinks content url cfg.baseUrl).foldl
              (fun s l => crawlG cfg g l (depth + 1) s) (markVisited url st)
        | none => addRequest ⟨url, depth⟩ (markVisited url st)

/-- `crawl(url, name, baseUrl, visited, depth, maxDepth, token)`. -/
def crawl (cfg : Cfg) (url : Str) (depth : Nat) (st : St) : St :=
  crawlG cfg (cfg.maxDepth + 1 - depth) url depth st

/-- `await Promise.all(links.map(link => crawl(link, ..., depth, ...)))`:
the mapped `crawl` calls run their synchronous prefixes in list order. -/
def crawlAll (cfg : Cfg) (links : List Str) (depth : Nat) (st : St) : St :=
  links.foldl (fun s l => crawl cfg l depth s) st

/-- `url.split('#')[0]`. -/
def splitHashFst (url : Str) : Str := (takeUntil '#' url).1

/-- Embeds the job closure submitted by `crawl` (src/src/index.ts lines
421-445): fetch the proxy content (its failure rethrows out of the job,
`true` in the result), save it under the hash-stripped URL, extract links;
then try the direct fetch, whose failure is caught and falls back to the
proxy-derived links, as does an empty html link set. -/
def execJob (cfg : Cfg) (j : Job) (st : St) : St × Bool :=
  let st0 : St := { st with fetches := st.fetches ++ [FetchEv.primary j.url] }
  match cfg.fetchMd j.url with
  | none => (st0, true)
  | some mdContent =>
    let st1 : St := { st0 with
      fsys := saveContent cfg.name cfg.baseUrl (splitHashFst j.url) mdContent st0.fsys }
    let mdLinks := extractLinks mdContent j.url cfg.baseUrl
    let st2 : St := { st1 with fetches := st1.fetches ++ [FetchEv.secondary j.url] }
    match cfg.fetchHtml j.url with
    | some originalContent =>
      let htmlLinks := extractLinksFromHtml cfg.hrefsOf originalContent j.url cfg.baseUrl
      if htmlLinks ≠ [] then
        (crawlAll cfg (dedupFirst (mdLinks ++ htmlLinks)) (j.depth + 1) st2, false)
      else
        (crawlAll cfg mdLinks (j.depth + 1) st2, false)
    | none => (crawlAll cfg mdLinks (j.depth + 1) st2, false)

/-- Embeds `RequestScheduler.processQueue` (src/src/index.ts lines 232-246):
drain the queue one job at a time.  A job that throws propagates out of
`await fn()`: the loop stops (`true` in the result) and `isRunning` is never
reset.  `fuel` bounds the number of loop iterations; every property below is
stated with (or instantiated at) sufficient fuel. -/
def drainQueue (cfg : Cfg) : Nat → St → St × Bool
  | 0, st => (st, false)
  | fuel + 1, st =>
    match st.queue with
    | [] => ({ st with isRunning := false }, false)
    | j :: rest =>
      let p := execJob cfg j { st with queue := rest }
      if p.2 then (p.1, true) else drainQueue cfg fuel p.1

/-- Embeds `startCrawling` (src/src/index.ts lines 457-465): fresh visited
set, crawl the base URL at depth 0, then (the scheduler having been started
by the first `addRequest`) drain the queue.  The initial filesystem is a
parameter so that re-runs over an existing output directory can be stated. -/
def startCrawling (cfg : Cfg) (fuel : Nat) (fs0 : Fs) : St × Bool :=
  drainQueue cfg fuel
    (crawl cfg cfg.baseUrl 0 ⟨[], fs0, [], true, [], []⟩)

/-- Drop every trailing slash of a path. -/
def dropTrailingSlashes (p : Str) : Str :=
  (p.reverse.dropWhile (fun c => decide (c = '/'))).reverse

/-- The in-scope predicate in the words of the spec: same origin and, after
ignoring trailing slashes, the url path equals the base path, or starts with
the base path followed by `/`, or the base path is empty and the url path
starts with `/`. -/
def scopeSpec (u b : JsUrl) : Prop :=
  u.origin = b.origin ∧
    (dropTrailingSlashes u.pathname = dropTrailingSlashes b.pathname
      ∨ strStartsWith (dropTrailingSlashes b.pathname ++ ['/'])
          (dropTrailingSlashes u.pathname) = true
      ∨ (dropTrailingSlashes b.pathname = []
          ∧ strStartsWith ['/'] (dropTrailingSlashes u.pathname) = true))

instance (u b : JsUrl) : Decidable (scopeSpec u b) := by
  unfold scopeSpec; infer_instance

/-- The in-scope predicate in the words of the spec, amended to strip at most
one trailing slash of each path, as the source does. -/
def scopeSpecOne (u b : JsUrl) : Prop :=
  u.origin = b.origin ∧
    (stripTrailingSlash u.pathname = stripTrailingSlash b.pathname
      ∨ strStartsWith (stripTrailingSlash b.pathname ++ ['/'])
          (stripTrailingSlash u.pathname) = true
      ∨ (stripTrailingSlash b.pathname = []
          ∧ strStartsWith ['/'] (stripTrailingSlash u.pathname) = true))

/-- The set of links a scheduled job recurses on, as computed by the job body
(src/src/index.ts lines 421-445): the proxy-content links, united with the
html links when the direct fetch succeeds and yields at least one link. -/
def jobLinks (cfg : Cfg) (url : Str) : List Str :=
  match cfg.fetchMd url with
  | none => []
  | some mdContent =>
    let mdLinks := extractLinks mdContent url cfg.baseUrl
    match cfg.fetchHtml url with
    | some originalContent =>
      let htmlLinks := extractLinksFromHtml cfg.hrefsOf originalContent url cfg.baseUrl
      if htmlLinks ≠ [] then dedupFirst (mdLinks ++ htmlLinks) else mdLinks
    | none => mdLinks

/-- An inline element of a structured-text (Markdown) content blob: plain
text, a link `[label](target)`, an image `![label](target)`, or a link whose
label is an image `[![alt](img)](target)`. -/
inductive Inline where
  | text (s : Str)
  | link (label target : Str)
  | image (label target : Str)
  | imageLink (alt img target : Str)

/-- Render one inline element to its Markdown surface syntax. -/
def renderInline : Inline → Str
  | .text s => s
  | .link label target => '[' :: label ++ ']' :: '(' :: target ++ [')']
  | .image label target => '!' :: '[' :: label ++ ']' :: '(' :: target ++ [')']
  | .imageLink alt img target =>
    '[' :: ('!' :: '[' :: alt ++ ']' :: '(' :: img ++ [')']) ++ ']' :: '(' :: target ++ [')']

/-- Render a content blob from its inline elements. -/
def renderDoc (els : List Inline) : Str := (els.map renderInline).flatten

/-- Plain text that cannot open or alter a link or image construct. -/
def okText (s : Str) : Prop := '[' ∉ s ∧ '!' ∉ s

/-- A label that closes where the construct closes it. -/
def okLabel (s : Str) : Prop := ']' ∉ s ∧ '!' ∉ s ∧ '[' ∉ s

/-- A target that closes where the construct closes it. -/
def okTarget (s : Str) : Prop :=
  ')' ∉ s ∧ '\n' ∉ s ∧ '!' ∉ s ∧ '[' ∉ s ∧ ']' ∉ s

/-- Well-formedness of an inline element. -/
def okInline : Inline → Prop
  | .text s => okText s
  | .link label target => okLabel label ∧ okTarget target
  | .image label target => okLabel label ∧ okTarget target
  | .imageLink alt img target => okLabel alt ∧ okTarget img ∧ okTarget target

instance : DecidablePred okText := fun _ => by unfold okText; infer_instance

instance : DecidablePred okLabel := fun _ => by unfold okLabel; infer_instance

instance : DecidablePred okTarget := fun _ => by unfold okTarget; infer_instance

instance : DecidablePred okInline := fun e => by
  unfold okInline; cases e <;> infer_instance

/-- The targets of the navigable link constructs of a content blob, in
order: a `link` contributes its target, an `imageLink` contributes its outer
target (not the image source), and an `image` contributes nothing. -/
def navTargets : List Inline → List Str
  | [] => []
  | .link _ t :: es => t :: navTargets es
  | .imageLink _ _ t :: es => t :: navTargets es
  | .text _ :: es => navTargets es
  | .image _ _ :: es => navTargets es

/-- Replace every image construct by nothing and every image-labelled link by
an empty-labelled link: the textual effect of the image-removal pass. -/
def stripImagesDoc (els : List Inline) : List Inline :=
  els.map fun e =>
    match e with
    | .image _ _ => .text []
    | .imageLink _ _ t => .link [] t
    | x => x

/-- `StExt s' s`: `s'` extends `s` — the filesystem, fetch log and running
flag agree, while the visited set, the queue and the submission log of `s`
are prefixes of those of `s'` (the crawl recursion only appends to them). -/
def StExt (s' s : St) : Prop :=
  s'.fsys = s.fsys ∧ s'.fetches = s.fetches ∧ s'.isRunning = s.isRunning
    ∧ (∃ nv, s'.visited = s.visited ++ nv)
    ∧ (∃ nq, s'.queue = s.queue ++ nq)
    ∧ (∃ ns, s'.submitted = s.submitted ++ ns)

/-- The once-per-run invariant: no URL occurs twice in the visited set, no
URL occurs twice in the submission log, and every submitted job's URL is in
the visited set. -/
def InvSt (st : St) : Prop :=
  st.visited.Nodup ∧ (st.submitted.map Job.url).Nodup
    ∧ ∀ j ∈ st.submitted, j.url ∈ st.visited

/-- A concrete run in which the primary (proxy) fetch of the seed fails while
the direct fetch of the seed would succeed and its markup holds a link. -/
def cfgC1 : Cfg where
  fetchMd := fun _ => none
  fetchHtml := fun _ => some (("<html>").toList)
  hrefsOf := fun _ => [("/page").toList]
  name := ("proj").toList
  baseUrl := ("https://example.com").toList
  maxDepth := 1

/-- A concrete run in which the seed page links to `/a` and `/b`, and the
primary fetch of `/a` fails while `/b` would succeed. -/
def cfgC2 : Cfg where
  fetchMd := fun u =>
    if u = ("https://example.com").toList then some (("[a](/a) [b](/b)").toList)
    else if u = ("https://example.com/a").toList then none
    else some (("content-b").toList)
  fetchHtml := fun _ => none
  hrefsOf := fun _ => []
  name := ("proj").toList
  baseUrl := ("https://example.com").toList
  maxDepth := 1

/-- A concrete run in which the seed page links to the same page both bare
and with an in-page anchor fragment. -/
def cfgC3 : Cfg where
  fetchMd := fun u =>
    if u = ("https://example.com").toList then
      some (("[a](https://example.com/x) [b](https://example.com/x#top)").toList)
    else some []
  fetchHtml := fun _ => none
  hrefsOf := fun _ => []
  name := ("proj").toList
  baseUrl := ("https://example.com").toList
  maxDepth := 1

/-- A clean path segment: nonempty, not a dot segment, and free of the URL
and path delimiter characters.  Pathnames built from clean segments are fixed
points of both the URL normalization and `path.posix.normalize`, which
isolates the path-assembly behaviour of `getFilePath` from dot-segment
resolution. -/
def cleanSeg (s : Str) : Prop :=
  s ≠ [] ∧ s ≠ ['.'] ∧ s ≠ ['.', '.'] ∧ ∀ c ∈ s, c ≠ '/' ∧ c ≠ '?' ∧ c ≠ '#'

instance : DecidablePred cleanSeg := fun _ => by unfold cleanSeg; infer_instance

/-- The absolute URL string `https://<host>/<seg1>/…/<segn>`. -/
def mkAbsUrl (host : Str) (segs : List Str) : Str :=
  ("https://").toList ++ host ++ ['/'] ++ List.intercalate ['/'] segs

theorem takeUntil_snd_length_le (stop : Char) (s : Str) :
    (takeUntil stop s).2.length ≤ s.length := by
  induction s with
  | nil => simp [takeUntil]
  | cons c cs ih =>
    simp only [takeUntil]
    split
    · simp
    · simpa using Nat.le_succ_of_le ih

theorem takeUntil_append_of_not_mem (stop : Char) (a b : Str) (h : stop ∉ a) :
    takeUntil stop (a ++ b) = (a ++ (takeUntil stop b).1, (takeUntil stop b).2) := by
  induction a with
  | nil => simp
  | cons c cs ih =>
    simp only [List.mem_cons, not_or] at h
    have hc : ¬c = stop := fun hh => h.1 hh.symm
    simp only [List.cons_append, takeUntil, if_neg hc, List.append_eq, ih h.2]

theorem takeUntil_cons_self (stop : Char) (s : Str) :
    takeUntil stop (stop :: s) = ([], stop :: s) := by
  simp [takeUntil]

theorem takeUntil_of_not_mem (stop : Char) (s : Str) (h : stop ∉ s) :
    takeUntil stop s = (s, []) := by
  have := takeUntil_append_of_not_mem stop s [] h
  simpa [takeUntil] using this

theorem takeUntilP_snd_length_le (p : Char → Bool) (s : Str) :
    (takeUntilP p s).2.length ≤ s.length := by
  induction s with
  | nil => simp [takeUntilP]
  | cons c cs ih =>
    simp only [takeUntilP]
    split
    · simp
    · simpa using Nat.le_succ_of_le ih

theorem takeUntilP_append_of_all_not (p : Char → Bool) (a b : Str)
    (h : ∀ c ∈ a, p c = false) :
    takeUntilP p (a ++ b) = (a ++ (takeUntilP p b).1, (takeUntilP p b).2) := by
  induction a with
  | nil => simp
  | cons c cs ih =>
    have hc : p c = false := h c (by simp)
    simp only [List.cons_append, takeUntilP, hc, Bool.false_eq_true, if_false,
      List.append_eq, ih (fun d hd => h d (by simp [hd]))]

theorem takeUntilP_of_all_not (p : Char → Bool) (s : Str) (h : ∀ c ∈ s, p c = false) :
    takeUntilP p s = (s, []) := by
  have := takeUntilP_append_of_all_not p s [] h
  simpa [takeUntilP] using this

theorem expectChar_length {c : Char} {s r : Str} (h : expectChar c s = some r) :
    r.length < s.length := by
  match s with
  | [] => simp [expectChar] at h
  | x :: xs =>
    simp only [expectChar] at h
    split at h
    · cases h; simp
    · cases h

theorem expectChar_cons_self (c : Char) (s : Str) : expectChar c (c :: s) = some s := by
  simp [expectChar]

theorem matchImageAt_length {s r : Str} (h : matchImageAt s = some r) :
    r.length < s.length := by
  simp only [matchImageAt, Option.pure_def, Option.bind_eq_bind, Option.bind_eq_some,
    Option.some.injEq] at h
  obtain ⟨s1, h1, s2, h2, s3, h3, s4, h4, s5, h5, rfl⟩ := h
  have e1 := expectChar_length h1
  have e2 := expectChar_length h2
  have e3 := expectChar_length h3
  have e4 := expectChar_length h4
  have e5 := expectChar_length h5
  have t1 := takeUntil_snd_length_le ']' s2
  have t2 := takeUntil_snd_length_le ')' s4
  omega

theorem removeImagesF_congr :
    ∀ (m n : Nat) (s : Str), s.length ≤ m → s.length ≤ n →
      removeImagesF m s = removeImagesF n s := by
  intro m
  induction m with
  | zero =>
    intro n s hm _
    rw [List.length_eq_zero.mp (Nat.le_zero.mp hm)]
    cases n <;> simp [removeImagesF]
  | succ m ih =>
    intro n s hm hn
    match s with
    | [] => cases n <;> simp [removeImagesF]
    | c :: cs =>
      match n with
      | 0 => simp at hn
      | n + 1 =>
        simp only [removeImagesF]
        simp only [List.length_cons] at hm hn
        cases h : matchImageAt (c :: cs) with
        | some rest =>
          have hlt := matchImageAt_length h
          simp only [List.length_cons] at hlt
          show removeImagesF m rest = removeImagesF n rest
          exact ih n rest (by omega) (by omega)
        | none =>
          show c :: removeImagesF m cs = c :: removeImagesF n cs
          rw [ih n cs (by omega) (by omega)]

theorem removeImages_cons (c : Char) (cs : Str) :
    removeImages (c :: cs) =
      match matchImageAt (c :: cs) with
      | some rest => removeImages rest
      | none => c :: removeImages cs := by
  show removeImagesF (c :: cs).length (c :: cs) = _
  rw [show (c :: cs).length = cs.length + 1 from rfl, removeImagesF]
  cases h : matchImageAt (c :: cs) with
  | some rest =>
    have hlt := matchImageAt_length h
    simp only [List.length_cons] at hlt
    show removeImagesF cs.length rest = removeImages rest
    exact removeImagesF_congr cs.length rest.length rest (by omega) le_rfl
  | none => rfl

theorem removeImages_nil : removeImages [] = [] := rfl

theorem matchLinkAt_length {s : Str} {p : Str × Str} (h : matchLinkAt s = some p) :
    p.2.length < s.length := by
  simp only [matchLinkAt, Option.pure_def, Option.bind_eq_bind, Option.bind_eq_some,
    Option.some.injEq] at h
  obtain ⟨s1, h1, s2, h2, s3, h3, s4, h4, rfl⟩ := h
  have e1 := expectChar_length h1
  have e2 := expectChar_length h2
  have e3 := expectChar_length h3
  have e4 := expectChar_length h4
  have t1 := takeUntil_snd_length_le ']' s1
  have t2 := takeUntilP_snd_length_le (fun ch => ch = ')' || ch = '\n') s3
  simp only [List.length_cons] at e1 e2 e3 e4 ⊢
  omega

theorem extractRawLinksF_congr :
    ∀ (m n : Nat) (s : Str), s.length ≤ m → s.length ≤ n →
      extractRawLinksF m s = extractRawLinksF n s := by
  intro m
  induction m with
  | zero =>
    intro n s hm _
    rw [List.length_eq_zero.mp (Nat.le_zero.mp hm)]
    cases n <;> simp [extractRawLinksF]
  | succ m ih =>
    intro n s hm hn
    match s with
    | [] => cases n <;> simp [extractRawLinksF]
    | c :: cs =>
      match n with
      | 0 => simp at hn
      | n + 1 =>
        simp only [extractRawLinksF]
        simp only [List.length_cons] at hm hn
        cases h : matchLinkAt (c :: cs) with
        | some p =>
          have hlt := matchLinkAt_length h
          simp only [List.length_cons] at hlt
          show p.1 :: extractRawLinksF m p.2 = p.1 :: extractRawLinksF n p.2
          rw [ih n p.2 (by omega) (by omega)]
        | none =>
          show extractRawLinksF m cs = extractRawLinksF n cs
          exact ih n cs (by omega) (by omega)

theorem extractRawLinks_cons (c : Char) (cs : Str) :
    extractRawLinks (c :: cs) =
      match matchLinkAt (c :: cs) with
      | some p => p.1 :: extractRawLinks p.2
      | none => extractRawLinks cs := by
  show extractRawLinksF (c :: cs).length (c :: cs) = _
  rw [show (c :: cs).length = cs.length + 1 from rfl, extractRawLinksF]
  cases h : matchLinkAt (c :: cs) with
  | some p =>
    have hlt := matchLinkAt_length h
    simp only [List.length_cons] at hlt
    show p.1 :: extractRawLinksF cs.length p.2 = p.1 :: extractRawLinks p.2
    rw [extractRawLinksF_congr cs.length p.2.length p.2 (by omega) le_rfl]
    rfl
  | none =>
    show extractRawLinksF cs.length cs = extractRawLinks cs
    rfl

theorem extractRawLinks_nil : extractRawLinks [] = [] := rfl

theorem dedupFirstF_congr :
    ∀ (m n : Nat) (l : List Str), l.length ≤ m → l.length ≤ n →
      dedupFirstF m l = dedupFirstF n l := by
  intro m
  induction m with
  | zero =>
    intro n l hm _
    rw [List.length_eq_zero.mp (Nat.le_zero.mp hm)]
    cases n <;> simp [dedupFirstF]
  | succ m ih =>
    intro n l hm hn
    match l with
    | [] => cases n <;> simp [dedupFirstF]
    | x :: xs =>
      match n with
      | 0 => simp at hn
      | n + 1 =>
        simp only [dedupFirstF, List.cons.injEq, true_and]
        simp only [List.length_cons] at hm hn
        have hf := List.length_filter_le (fun y => decide (y ≠ x)) xs
        exact ih n _ (by omega) (by omega)

theorem dedupFirst_cons (x : Str) (xs : List Str) :
    dedupFirst (x :: xs) = x :: dedupFirst (xs.filter (fun y => decide (y ≠ x))) := by
  show dedupFirstF (x :: xs).length (x :: xs) = _
  rw [show (x :: xs).length = xs.length + 1 from rfl, dedupFirstF]
  have hf := List.length_filter_le (fun y => decide (y ≠ x)) xs
  rw [dedupFirstF_congr xs.length (xs.filter (fun y => decide (y ≠ x))).length _ (by omega) le_rfl]
  rfl

theorem dedupFirst_nil : dedupFirst [] = [] := rfl

theorem stExt_refl {s : St} : StExt s s :=
  ⟨rfl, rfl, rfl, ⟨[], by simp⟩, ⟨[], by simp⟩, ⟨[], by simp⟩⟩

theorem stExt_trans {a b c : St} (h1 : StExt a b) (h2 : StExt b c) : StExt a c := by
  obtain ⟨f1, l1, r1, ⟨v1, hv1⟩, ⟨q1, hq1⟩, ⟨s1, hs1⟩⟩ := h1
  obtain ⟨f2, l2, r2, ⟨v2, hv2⟩, ⟨q2, hq2⟩, ⟨s2, hs2⟩⟩ := h2
  exact ⟨f1.trans f2, l1.trans l2, r1.trans r2,
    ⟨v2 ++ v1, by rw [hv1, hv2, List.append_assoc]⟩,
    ⟨q2 ++ q1, by rw [hq1, hq2, List.append_assoc]⟩,
    ⟨s2 ++ s1, by rw [hs1, hs2, List.append_assoc]⟩⟩

theorem crawlG_of_guard {cfg : Cfg} {gas : Nat} {url : Str} {depth : Nat} {st : St}
    (h : depth > cfg.maxDepth ∨ url ∈ st.visited) :
    crawlG cfg gas url depth st = st := by
  rw [crawlG]
  exact if_pos h

theorem crawl_of_depth_gt {cfg : Cfg} {url : Str} {depth : Nat} {st : St}
    (h : depth > cfg.maxDepth) : crawl cfg url depth st = st :=
  crawlG_of_guard (Or.inl h)

theorem crawl_of_visited {cfg : Cfg} {url : Str} {depth : Nat} {st : St}
    (h : url ∈ st.visited) : crawl cfg url depth st = st :=
  crawlG_of_guard (Or.inr h)

theorem crawlAll_of_depth_gt {cfg : Cfg} (links : List Str) {depth : Nat} (st : St)
    (h : depth > cfg.maxDepth) : crawlAll cfg links depth st = st := by
  induction links with
  | nil => rfl
  | cons l ls ih =>
    show crawlAll cfg ls depth (crawl cfg l depth st)
      = st
    rw [crawl_of_depth_gt h]
    exact ih

theorem stExt_markVisited {url : Str} {st : St} : StExt (markVisited url st) st :=
  ⟨rfl, rfl, rfl, ⟨[url], rfl⟩, ⟨[], by simp [markVisited]⟩, ⟨[], by simp [markVisited]⟩⟩

theorem stExt_addRequest_markVisited {url : Str} {depth : Nat} {st : St} :
    StExt (addRequest ⟨url, depth⟩ (markVisited url st)) st :=
  ⟨rfl, rfl, rfl, ⟨[url], rfl⟩, ⟨[⟨url, depth⟩], rfl⟩, ⟨[⟨url, depth⟩], rfl⟩⟩

theorem crawlG_stExt (cfg : Cfg) :
    ∀ (gas : Nat) (url : Str) (depth : Nat) (st : St),
      StExt (crawlG cfg gas url depth st) st := by
  intro gas
  induction gas with
  | zero =>
    intro url depth st
    rw [crawlG]
    split
    · exact stExt_refl
    · split
      · exact stExt_markVisited
      · split
        · exact stExt_markVisited
        · exact stExt_addRequest_markVisited
  | succ g ih =>
    intro url depth st
    have hfold : ∀ (links : List Str) (s : St),
        StExt (links.foldl (fun s l => crawlG cfg g l (depth + 1) s) s) s := by
      intro links
      induction links with
      | nil => intro s; exact stExt_refl
      | cons l ls ihl => intro s; exact stExt_trans (ihl _) (ih l (depth + 1) s)
    rw [crawlG]
    split
    · exact stExt_refl
    · split
      · exact stExt_markVisited
      · split
        · exact stExt_trans (hfold _ _) stExt_markVisited
        · exact stExt_addRequest_markVisited

theorem crawl_stExt (cfg : Cfg) (url : Str) (depth : Nat) (st : St) :
    StExt (crawl cfg url depth st) st :=
  crawlG_stExt cfg _ url depth st

theorem crawlAll_stExt (cfg : Cfg) (links : List Str) (depth : Nat) :
    ∀ st : St, StExt (crawlAll cfg links depth st) st := by
  induction links with
  | nil => intro st; exact stExt_refl
  | cons l ls ih =>
    intro st
    exact stExt_trans (ih _) (crawl_stExt cfg l depth st)

/-- After each of the three link-recursion branches of the job body, the
filesystem is the one produced by `saveContent` and the queue has only been
appended to. -/
theorem execJob_effects (cfg : Cfg) (j : Job) (st : St) :
    (∃ newJobs, (execJob cfg j st).1.queue = st.queue ++ newJobs)
      ∧ ((execJob cfg j st).2 = false →
          ∃ md, cfg.fetchMd j.url = some md
            ∧ (execJob cfg j st).1.fsys
                = saveContent cfg.name cfg.baseUrl (splitHashFst j.url) md st.fsys) := by
  cases hmd : cfg.fetchMd j.url with
  | none =>
    simp only [execJob, hmd]
    exact ⟨⟨[], by simp⟩, by intro h; cases h⟩
  | some md =>
    cases hht : cfg.fetchHtml j.url with
    | none =>
      simp only [execJob, hmd, hht]
      refine ⟨?_, fun _ => ⟨md, rfl, ?_⟩⟩
      · obtain ⟨_, _, _, _, ⟨nq, hq⟩, _⟩ := crawlAll_stExt cfg _ (j.depth + 1) _
        exact ⟨nq, hq⟩
      · obtain ⟨hf, _⟩ := crawlAll_stExt cfg _ (j.depth + 1) _
        exact hf
    | some originalContent =>
      simp only [execJob, hmd, hht]
      split
      · refine ⟨?_, fun _ => ⟨md, rfl, ?_⟩⟩
        · obtain ⟨_, _, _, _, ⟨nq, hq⟩, _⟩ := crawlAll_stExt cfg _ (j.depth + 1) _
          exact ⟨nq, hq⟩
        · obtain ⟨hf, _⟩ := crawlAll_stExt cfg _ (j.depth + 1) _
          exact hf
      · refine ⟨?_, fun _ => ⟨md, rfl, ?_⟩⟩
        · obtain ⟨_, _, _, _, ⟨nq, hq⟩, _⟩ := crawlAll_stExt cfg _ (j.depth + 1) _
          exact ⟨nq, hq⟩
        · obtain ⟨hf, _⟩ := crawlAll_stExt cfg _ (j.depth + 1) _
          exact hf

/-- A job whose depth has reached the depth bound leaves the visited set,
the queue and the submission log untouched (its recursive crawls all return
at the depth guard). -/
theorem execJob_deep {cfg : Cfg} {j : Job} {st : St} (h : cfg.maxDepth ≤ j.depth) :
    (execJob cfg j st).1.visited = st.visited
      ∧ (execJob cfg j st).1.queue = st.queue
      ∧ (execJob cfg j st).1.submitted = st.submitted := by
  have hd : j.depth + 1 > cfg.maxDepth := by omega
  cases hmd : cfg.fetchMd j.url with
  | none =>
    simp only [execJob, hmd]
    exact ⟨trivial, trivial, trivial⟩
  | some md =>
    cases hht : cfg.fetchHtml j.url with
    | none =>
      simp only [execJob, hmd, hht]
      rw [crawlAll_of_depth_gt _ _ hd]
      exact ⟨rfl, rfl, rfl⟩
    | some originalContent =>
      simp only [execJob, hmd, hht]
      split
      · rw [crawlAll_of_depth_gt _ _ hd]
        exact ⟨rfl, rfl, rfl⟩
      · rw [crawlAll_of_depth_gt _ _ hd]
        exact ⟨rfl, rfl, rfl⟩

/-- C1 counterexample.  In the run `cfgC1` the seed's primary (proxy) fetch
fails while the direct fetch would succeed with markup holding an in-scope
link.  Contrary to the claim, the run performs no secondary fetch (the fetch
log holds only the primary attempt), persists no artifact, and the primary
failure surfaces as the run's error. -/
theorem C1_counterexample :
    (startCrawling cfgC1 10 []).2 = true
      ∧ (startCrawling cfgC1 10 []).1.fsys = []
      ∧ (startCrawling cfgC1 10 []).1.fetches
          = [FetchEv.primary (("https://example.com").toList)] := by
  decide

/-- C2 counterexample.  In the run `cfgC2` the seed links to `/a` and `/b`;
the job for `/a` throws (primary fetch failure).  Contrary to the claim, the
already-enqueued sibling target `/b` is never processed: the run ends with
`/b` still in the queue, never fetched, its artifact never written, and the
scheduler's running flag permanently set. -/
theorem C2_counterexample :
    (startCrawling cfgC2 10 []).2 = true
      ∧ (⟨("https://example.com/b").toList, 1⟩ : Job)
          ∈ (startCrawling cfgC2 10 []).1.submitted
      ∧ (startCrawling cfgC2 10 []).1.queue
          = [⟨("https://example.com/b").toList, 1⟩]
      ∧ FetchEv.primary (("https://example.com/b").toList)
          ∉ (startCrawling cfgC2 10 []).1.fetches
      ∧ fsGet (startCrawling cfgC2 10 []).1.fsys (("docs/proj/b.md").toList) = none
      ∧ (startCrawling cfgC2 10 []).1.isRunning = true := by
  decide

/-- C3 counterexample.  In the run `cfgC3` the seed links to
`https://example.com/x` and to `https://example.com/x#top`, which differ
only by an in-page anchor fragment (their spec-modelled normalized forms
agree).  Contrary to the claim, the visited check uses the raw URL, so both
variants pass it and both are submitted as jobs (two fetches of the same
logical page). -/
theorem C3_counterexample :
    (("https://example.com/x").toList ≠ ("https://example.com/x#top").toList)
      ∧ normalizeUrl (("https://example.com/x").toList)
          = normalizeUrl (("https://example.com/x#top").toList)
      ∧ (⟨("https://example.com/x").toList, 1⟩ : Job)
          ∈ (startCrawling cfgC3 10 []).1.submitted
      ∧ (⟨("https://example.com/x#top").toList, 1⟩ : Job)
          ∈ (startCrawling cfgC3 10 []).1.submitted
      ∧ ("https://example.com/x").toList ∈ (startCrawling cfgC3 10 []).1.visited
      ∧ ("https://example.com/x#top").toList ∈ (startCrawling cfgC3 10 []).1.visited := by
  decide

/-- C4 counterexample.  At the valid absolute URLs
`https://example.com/docs` (url) and `https://example.com/docs//` (base),
whose paths agree after ignoring trailing slashes, the claim's predicate
holds, yet `isUrlInScope` returns `false`: the source strips at most one
trailing slash (`.replace(/\/$/, '')`), so the base path stays `/docs/`. -/
theorem C4_counterexample :
    isUrlInScope
        ⟨("https").toList, ("example.com").toList, ("/docs").toList, [], []⟩
        ⟨("https").toList, ("example.com").toList, ("/docs//").toList, [], []⟩ = false
      ∧ scopeSpec
        ⟨("https").toList, ("example.com").toList, ("/docs").toList, [], []⟩
        ⟨("https").toList, ("example.com").toList, ("/docs//").toList, [], []⟩ := by
  decide

/-- C5 counterexample.  The markdown link `[f](https://example.com/file.zip)`
resolves under the base URL and is returned by `extractLinks`, although the
spec-modelled `shouldCrawlUrl` rejects it (recognized archive extension):
link extraction applies no `shouldCrawlUrl` filter. -/
theorem C5_counterexample :
    extractLinks (("[f](https://example.com/file.zip)").toList)
        (("https://example.com").toList) (("https://example.com").toList)
      = [("https://example.com/file.zip").toList]
      ∧ shouldCrawlUrl (("https://example.com/file.zip").toList) = false := by
  decide

theorem dedupFirstF_subset :
    ∀ (fuel : Nat) (l : List Str) (u : Str), u ∈ dedupFirstF fuel l → u ∈ l := by
  intro fuel
  induction fuel with
  | zero =>
    intro l u h
    match l with
    | [] => simp [dedupFirstF] at h
    | x :: xs => exact h
  | succ f ih =>
    intro l u h
    match l with
    | [] => simp [dedupFirstF] at h
    | x :: xs =>
      simp only [dedupFirstF] at h
      rcases List.mem_cons.mp h with h1 | h2
      · exact List.mem_cons.mpr (Or.inl h1)
      · exact List.mem_cons.mpr (Or.inr (List.mem_filter.mp (ih _ u h2)).1)

theorem dedupFirst_subset (l : List Str) (u : Str) (h : u ∈ dedupFirst l) : u ∈ l :=
  dedupFirstF_subset l.length l u h

/-- C1 (amended).  When the primary (proxy) fetch of a target fails, the
scheduled job rethrows at once: no secondary fetch is attempted (the fetch
log gains only the primary attempt), nothing is persisted and nothing is
visited, so the primary failure surfaces to the run.  When the primary fetch
succeeds and the secondary (direct) fetch fails, the failure is contained:
the job reports success and the artifact persisted is the primary
representation (there is no local markup-to-text conversion). -/
theorem C1_primary_failure_surfaces :
    (∀ (cfg : Cfg) (j : Job) (st : St), cfg.fetchMd j.url = none →
        (execJob cfg j st).2 = true
          ∧ (execJob cfg j st).1.fsys = st.fsys
          ∧ (execJob cfg j st).1.visited = st.visited
          ∧ (execJob cfg j st).1.fetches = st.fetches ++ [FetchEv.primary j.url])
      ∧ (∀ (cfg : Cfg) (j : Job) (st : St) (md : Str),
          cfg.fetchMd j.url = some md → cfg.fetchHtml j.url = none →
            (execJob cfg j st).2 = false
              ∧ (execJob cfg j st).1.fsys
                  = saveContent cfg.name cfg.baseUrl (splitHashFst j.url) md st.fsys) := by
  constructor
  · intro cfg j st h
    simp [execJob, h]
  · intro cfg j st md hmd hht
    have hfs : (execJob cfg j st).1.fsys
        = saveContent cfg.name cfg.baseUrl (splitHashFst j.url) md st.fsys := by
      simp only [execJob, hmd, hht]
      obtain ⟨hf, _⟩ := crawlAll_stExt cfg _ (j.depth + 1) _
      exact hf
    have h2 : (execJob cfg j st).2 = false := by
      simp [execJob, hmd, hht]
    exact ⟨h2, hfs⟩

/-- Witness for C1 (amended), at a one-job state with each fetch outcome. -/
theorem C1_primary_failure_surfaces_witness :
    ((execJob ⟨fun _ => none, fun _ => some [], fun _ => [], [], [], 0⟩
          ⟨("u").toList, 0⟩ ⟨[], [], [], true, [], []⟩).2 = true)
      ∧ ((execJob ⟨fun _ => some [], fun _ => none, fun _ => [], [], [], 0⟩
          ⟨("u").toList, 0⟩ ⟨[], [], [], true, [], []⟩).2 = false) := by
  constructor
  · exact (C1_primary_failure_surfaces.1
      ⟨fun _ => none, fun _ => some [], fun _ => [], [], [], 0⟩
      ⟨("u").toList, 0⟩ ⟨[], [], [], true, [], []⟩ rfl).1
  · exact (C1_primary_failure_surfaces.2
      ⟨fun _ => some [], fun _ => none, fun _ => [], [], [], 0⟩
      ⟨("u").toList, 0⟩ ⟨[], [], [], true, [], []⟩ [] rfl rfl).1

/-- C2 (amended).  An error thrown inside a scheduled job propagates out of
the scheduler's drain loop: the loop stops at once with the failing job's
state — the remaining queue (which every job only appends to) is left
unexecuted and the running flag is never reset — instead of continuing with
the other enqueued targets. -/
theorem C2_job_error_halts_queue :
    (∀ (cfg : Cfg) (fuel : Nat) (st : St) (j : Job) (rest : List Job),
        st.queue = j :: rest →
        (execJob cfg j { st with queue := rest }).2 = true →
        drainQueue cfg (fuel + 1) st = ((execJob cfg j { st with queue := rest }).1, true))
      ∧ (∀ (cfg : Cfg) (j : Job) (st : St),
          ∃ newJobs, (execJob cfg j st).1.queue = st.queue ++ newJobs) := by
  constructor
  · intro cfg fuel st j rest hq herr
    rw [drainQueue, hq]
    simp only [herr, if_true]
  · intro cfg j st
    exact (execJob_effects cfg j st).1

/-- Witness for C2 (amended), at a one-job queue whose job's fetch fails. -/
theorem C2_job_error_halts_queue_witness :
    drainQueue ⟨fun _ => none, fun _ => none, fun _ => [], [], [], 0⟩ 5
        ⟨[], [], [⟨("u").toList, 0⟩], true, [], []⟩
      = ((execJob ⟨fun _ => none, fun _ => none, fun _ => [], [], [], 0⟩
          ⟨("u").toList, 0⟩ ⟨[], [], [], true, [], []⟩).1, true)
      ∧ (∃ newJobs,
          (execJob ⟨fun _ => none, fun _ => none, fun _ => [], [], [], 0⟩
            ⟨("u").toList, 0⟩ ⟨[], [], [], true, [], []⟩).1.queue = [] ++ newJobs) := by
  constructor
  · exact C2_job_error_halts_queue.1
      ⟨fun _ => none, fun _ => none, fun _ => [], [], [], 0⟩ 4
      ⟨[], [], [⟨("u").toList, 0⟩], true, [], []⟩ ⟨("u").toList, 0⟩ [] rfl (by decide)
  · exact C2_job_error_halts_queue.2
      ⟨fun _ => none, fun _ => none, fun _ => [], [], [], 0⟩
      ⟨("u").toList, 0⟩ ⟨[], [], [], true, [], []⟩

/-- C3 (amended).  The spec-modelled `normalizeUrl` behaves exactly as the
spec states — a fragment containing `/` is preserved verbatim, any other
(also empty) fragment is stripped together with its `#`, and a URL without
`#` is unchanged — but `crawl` applies no normalization: its visited-set
membership check compares the raw URL string, so two URLs that differ only
by an in-page anchor fragment are distinct targets (each visited and
submitted at most once per exact string). -/
theorem C3_visited_check_is_raw :
    (∀ pre frag : Str, '#' ∉ pre →
        normalizeUrl (pre ++ '#' :: frag)
          = if '/' ∈ frag then pre ++ '#' :: frag else pre)
      ∧ (∀ s : Str, '#' ∉ s → normalizeUrl s = s)
      ∧ (∀ (cfg : Cfg) (url : Str) (depth : Nat) (st : St),
          url ∈ st.visited → crawl cfg url depth st = st) := by
  refine ⟨?_, ?_, ?_⟩
  · intro pre frag hp
    unfold normalizeUrl
    rw [takeUntil_append_of_not_mem '#' pre _ hp, takeUntil_cons_self]
    by_cases hf : '/' ∈ frag <;> simp [hf]
  · intro s hs
    unfold normalizeUrl
    rw [takeUntil_of_not_mem '#' s hs]
  · intro cfg url depth st h
    exact crawl_of_visited h

/-- Witness for C3 (amended) at concrete anchor and hash-route URLs and a
concrete visited state. -/
theorem C3_visited_check_is_raw_witness :
    normalizeUrl (("https://e.com/p").toList ++ '#' :: ("top").toList)
        = ("https://e.com/p").toList
      ∧ normalizeUrl (("https://e.com/p").toList) = ("https://e.com/p").toList
      ∧ crawl ⟨fun _ => none, fun _ => none, fun _ => [], [], [], 2⟩
          (("https://e.com/p").toList) 1
          ⟨[("https://e.com/p").toList], [], [], true, [], []⟩
        = ⟨[("https://e.com/p").toList], [], [], true, [], []⟩ := by
  refine ⟨?_, ?_, ?_⟩
  · have h := C3_visited_check_is_raw.1 (("https://e.com/p").toList) (("top").toList)
      (by decide)
    rw [h]
    decide
  · exact C3_visited_check_is_raw.2.1 (("https://e.com/p").toList) (by decide)
  · exact C3_visited_check_is_raw.2.2 ⟨fun _ => none, fun _ => none, fun _ => [], [], [], 2⟩
      (("https://e.com/p").toList) 1
      ⟨[("https://e.com/p").toList], [], [], true, [], []⟩ (by decide)

/-- C4 (amended).  `isUrlInScope` returns `true` exactly when the origins
agree and, after stripping at most one trailing slash from each path, the
url path equals the base path, or starts with the base path followed by `/`,
or the base path is empty and the url path starts with `/`; in particular
the sibling path `/documentation/guide` is out of scope for base `/docs`. -/
theorem C4_scope_iff :
    (∀ u b : JsUrl, isUrlInScope u b = true ↔ scopeSpecOne u b)
      ∧ isUrlInScope
          ⟨("https").toList, ("example.com").toList,
            ("/documentation/guide").toList, [], []⟩
          ⟨("https").toList, ("example.com").toList, ("/docs").toList, [], []⟩
        = false := by
  constructor
  · intro u b
    unfold isUrlInScope scopeSpecOne
    by_cases h : u.origin = b.origin
    · simp [h, or_assoc]
    · simp [h]
  · decide

/-- C5 (amended).  Every URL returned by `extractLinks` has passed exactly
one filter: it is the serialization of a resolved URL that `isUrlInScope`
accepts against the run's base URL.  No `shouldCrawlUrl` check is applied
(see the counterexample: an in-scope `file.zip` link is returned). -/
theorem C5_only_scope_filter :
    ∀ (content currentUrl baseUrl u : Str),
      u ∈ extractLinks content currentUrl baseUrl →
      ∃ b abs, parseUrl baseUrl = some b ∧ isUrlInScope abs b = true ∧ u = abs.href := by
  intro content cur base u hu
  unfold extractLinks at hu
  replace hu := dedupFirst_subset _ _ hu
  obtain ⟨link, _, hpl⟩ := List.mem_filterMap.mp hu
  cases hcur : parseUrl cur with
  | none =>
    simp only [processLink, hcur] at hpl
    cases hpl
  | some curObj =>
    cases hres : resolveUrl link curObj with
    | none =>
      simp only [processLink, hcur, hres] at hpl
      cases hpl
    | some abs =>
      cases hbase : parseUrl base with
      | none =>
        simp only [processLink, hcur, hres, hbase] at hpl
        cases hpl
      | some b =>
        simp only [processLink, hcur, hres, hbase] at hpl
        by_cases hsc : isUrlInScope abs b = true
        · rw [if_pos hsc] at hpl
          cases hpl
          exact ⟨b, abs, rfl, hsc, rfl⟩
        · rw [if_neg hsc] at hpl
          cases hpl

/-- Witness for C5 (amended) at a concrete in-scope extraction. -/
theorem C5_only_scope_filter_witness :
    ∃ b abs, parseUrl (("https://example.com").toList) = some b
      ∧ isUrlInScope abs b = true
      ∧ ("https://example.com/sub").toList = abs.href :=
  C5_only_scope_filter (("[s](/sub)").toList) (("https://example.com").toList)
    (("https://example.com").toList) (("https://example.com/sub").toList) (by decide)

/-- C9 counterexample.  For base `https://example.com/docs` and target
`https://example.com/docs/guide` the path of the target relative to the base
is `guide`, so the claim places the artifact at `docs/proj/guide.md`; the
source instead joins the base path with the target's full path and stores it
at `docs/proj/docs/docs/guide.md`. -/
theorem C9_counterexample :
    getFilePath (("proj").toList) (("https://example.com/docs").toList)
        (("https://example.com/docs/guide").toList)
      = some (("docs/proj/docs/docs/guide.md").toList)
      ∧ some (("docs/proj/docs/docs/guide.md").toList)
          ≠ some (("docs/proj/guide.md").toList) := by
  decide

theorem matchImageAt_none_of_ne_bang {c : Char} (cs : Str) (h : c ≠ '!') :
    matchImageAt (c :: cs) = none := by
  simp [matchImageAt, expectChar, h]

theorem matchLinkAt_none_of_ne_bracket {c : Char} (cs : Str) (h : c ≠ '[') :
    matchLinkAt (c :: cs) = none := by
  simp [matchLinkAt, expectChar, h]

theorem removeImages_append_of_no_bang :
    ∀ (s rest : Str), (∀ c ∈ s, c ≠ '!') →
      removeImages (s ++ rest) = s ++ removeImages rest := by
  intro s
  induction s with
  | nil => intro rest _; simp
  | cons c cs ih =>
    intro rest h
    rw [List.cons_append, removeImages_cons,
      matchImageAt_none_of_ne_bang _ (h c (by simp)), List.cons_append]
    rw [ih rest (fun d hd => h d (by simp [hd]))]

theorem matchImageAt_render (label target rest : Str)
    (hl : ']' ∉ label) (ht : ')' ∉ target) :
    matchImageAt ('!' :: '[' :: label ++ ']' :: '(' :: target ++ ')' :: rest)
      = some rest := by
  have h1 := takeUntil_append_of_not_mem ']' label
    ((']' :: '(' :: target ++ ')' :: rest : Str)) hl
  have h2 := takeUntil_append_of_not_mem ')' target ((')' :: rest : Str)) ht
  simp only [List.cons_append, List.append_assoc] at h1 h2 ⊢
  simp only [takeUntil_cons_self, List.append_nil] at h1 h2
  simp [matchImageAt, expectChar_cons_self, h1, h2]

theorem removeImages_image (label target rest : Str)
    (hl : ']' ∉ label) (ht : ')' ∉ target) :
    removeImages ('!' :: '[' :: label ++ ']' :: '(' :: target ++ ')' :: rest)
      = removeImages rest := by
  have hmi := matchImageAt_render label target rest hl ht
  simp only [List.cons_append, List.append_assoc] at hmi ⊢
  rw [removeImages_cons, hmi]

theorem matchLinkAt_render (label target rest : Str)
    (hl : ']' ∉ label) (ht : ')' ∉ target) (hn : '\n' ∉ target) :
    matchLinkAt ('[' :: label ++ ']' :: '(' :: target ++ ')' :: rest)
      = some (target, rest) := by
  have h1 := takeUntil_append_of_not_mem ']' label
    ((']' :: '(' :: target ++ ')' :: rest : Str)) hl
  have hT : ∀ c ∈ target, ((c = ')' || c = '\n') : Bool) = false := by
    intro c hc
    have hx : c ≠ ')' := fun he => ht (he ▸ hc)
    have hy : c ≠ '\n' := fun he => hn (he ▸ hc)
    simp [hx, hy]
  have h2 := takeUntilP_append_of_all_not (fun ch => ch = ')' || ch = '\n')
    target ((')' :: rest : Str)) hT
  have h3 : takeUntilP (fun ch => ((ch = ')' || ch = '\n') : Bool)) (')' :: rest)
      = ([], ')' :: rest) := by
    simp [takeUntilP]
  simp only [List.cons_append, List.append_assoc] at h1 h2 ⊢
  simp only [takeUntil_cons_self, h3, List.append_nil] at h1 h2
  simp [matchLinkAt, expectChar_cons_self, h1, h2, h3]

theorem extractRawLinks_append_of_no_bracket :
    ∀ (s rest : Str), (∀ c ∈ s, c ≠ '[') →
      extractRawLinks (s ++ rest) = extractRawLinks rest := by
  intro s
  induction s with
  | nil => intro rest _; simp
  | cons c cs ih =>
    intro rest h
    rw [List.cons_append, extractRawLinks_cons,
      matchLinkAt_none_of_ne_bracket _ (h c (by simp))]
    exact ih rest (fun d hd => h d (by simp [hd]))

theorem extractRawLinks_link (label target rest : Str)
    (hl : ']' ∉ label) (ht : ')' ∉ target) (hn : '\n' ∉ target) :
    extractRawLinks ('[' :: label ++ ']' :: '(' :: target ++ ')' :: rest)
      = target :: extractRawLinks rest := by
  have hml := matchLinkAt_render label target rest hl ht hn
  simp only [List.cons_append, List.append_assoc] at hml ⊢
  rw [extractRawLinks_cons, hml]

theorem renderDoc_cons (e : Inline) (es : List Inline) :
    renderDoc (e :: es) = renderInline e ++ renderDoc es := by
  simp [renderDoc]

theorem removeImages_renderDoc :
    ∀ (els : List Inline), (∀ e ∈ els, okInline e) →
      removeImages (renderDoc els) = renderDoc (stripImagesDoc els) := by
  intro els
  induction els with
  | nil => intro _; rfl
  | cons e es ih =>
    intro h
    have he := h e (by simp)
    have hrec := ih (fun x hx => h x (by simp [hx]))
    rw [renderDoc_cons]
    cases e with
    | text s =>
      obtain ⟨-, hs2⟩ := he
      rw [show renderInline (Inline.text s) = s from rfl,
        removeImages_append_of_no_bang s _ (fun c hc he => hs2 (he ▸ hc)), hrec]
      rw [show stripImagesDoc (Inline.text s :: es)
        = Inline.text s :: stripImagesDoc es from rfl, renderDoc_cons]
      rfl
    | link l t =>
      obtain ⟨hl, ht⟩ := he
      have hnb : '!' ∉ ('[' :: l ++ ']' :: '(' :: t ++ [')'] : Str) := by
        simp +decide [List.mem_cons, List.mem_append, hl.2.1, ht.2.2.1]
      rw [show renderInline (Inline.link l t)
          = '[' :: l ++ ']' :: '(' :: t ++ [')'] from rfl,
        removeImages_append_of_no_bang _ _ (fun c hc he => hnb (he ▸ hc)), hrec]
      rw [show stripImagesDoc (Inline.link l t :: es)
        = Inline.link l t :: stripImagesDoc es from rfl, renderDoc_cons]
      simp [renderInline]
    | image l t =>
      obtain ⟨hl, ht⟩ := he
      have hshape : renderInline (Inline.image l t) ++ renderDoc es
          = '!' :: '[' :: l ++ ']' :: '(' :: t ++ ')' :: renderDoc es := by
        simp [renderInline]
      rw [hshape, removeImages_image l t _ hl.1 ht.1, hrec]
      rw [show stripImagesDoc (Inline.image l t :: es)
        = Inline.text [] :: stripImagesDoc es from rfl, renderDoc_cons]
      rfl
    | imageLink a i t =>
      obtain ⟨ha, hi, ht⟩ := he
      have hshape : renderInline (Inline.imageLink a i t) ++ renderDoc es
          = '[' :: ('!' :: '[' :: a ++ ']' :: '(' :: i
              ++ ')' :: (']' :: '(' :: t ++ ')' :: renderDoc es)) := by
        simp [renderInline]
      have htail : removeImages (']' :: '(' :: t ++ ')' :: renderDoc es)
          = ']' :: '(' :: t ++ ')' :: removeImages (renderDoc es) := by
        have hnb : '!' ∉ (']' :: '(' :: t ++ [')'] : Str) := by
          simp +decide [List.mem_cons, List.mem_append, ht.2.2.1]
        have := removeImages_append_of_no_bang (']' :: '(' :: t ++ [')'])
          (renderDoc es) (fun c hc he => hnb (he ▸ hc))
        simpa using this
      rw [hshape, removeImages_cons, matchImageAt_none_of_ne_bang _ (by decide)]
      rw [removeImages_image a i _ ha.1 hi.1, htail, hrec]
      rw [show stripImagesDoc (Inline.imageLink a i t :: es)
        = Inline.link [] t :: stripImagesDoc es from rfl, renderDoc_cons]
      simp [renderInline]

theorem extractRawLinks_renderDoc :
    ∀ (els : List Inline), (∀ e ∈ els, okInline e) →
      extractRawLinks (renderDoc (stripImagesDoc els)) = navTargets els := by
  intro els
  induction els with
  | nil => intro _; rfl
  | cons e es ih =>
    intro h
    have he := h e (by simp)
    have hrec := ih (fun x hx => h x (by simp [hx]))
    cases e with
    | text s =>
      obtain ⟨hs1, -⟩ := he
      rw [show stripImagesDoc (Inline.text s :: es)
        = Inline.text s :: stripImagesDoc es from rfl, renderDoc_cons]
      rw [show renderInline (Inline.text s) = s from rfl]
      rw [extractRawLinks_append_of_no_bracket s _ (fun c hc he => hs1 (he ▸ hc)), hrec]
      rfl
    | link l t =>
      obtain ⟨hl, ht⟩ := he
      rw [show stripImagesDoc (Inline.link l t :: es)
        = Inline.link l t :: stripImagesDoc es from rfl, renderDoc_cons]
      have hshape : renderInline (Inline.link l t) ++ renderDoc (stripImagesDoc es)
          = '[' :: l ++ ']' :: '(' :: t ++ ')' :: renderDoc (stripImagesDoc es) := by
        simp [renderInline]
      rw [hshape, extractRawLinks_link l t _ hl.1 ht.1 ht.2.1, hrec]
      rfl
    | image l t =>
      rw [show stripImagesDoc (Inline.image l t :: es)
        = Inline.text [] :: stripImagesDoc es from rfl, renderDoc_cons]
      simpa [renderInline] using hrec
    | imageLink a i t =>
      obtain ⟨-, -, ht⟩ := he
      rw [show stripImagesDoc (Inline.imageLink a i t :: es)
        = Inline.link [] t :: stripImagesDoc es from rfl, renderDoc_cons]
      have hshape : renderInline (Inline.link [] t) ++ renderDoc (stripImagesDoc es)
          = '[' :: ([] : Str) ++ ']' :: '(' :: t ++ ')' :: renderDoc (stripImagesDoc es) := by
        simp [renderInline]
      rw [hshape, extractRawLinks_link [] t _ (by simp) ht.1 ht.2.1, hrec]
      rfl

/-- C6.  For every well-formed structured-text content blob — a sequence of
plain text runs, links `[label](target)`, images `![label](target)` and
image-labelled links `[![alt](img)](page)` — `extractLinks` returns exactly
the resolved in-scope targets of the navigable link constructs, in order,
deduplicated: the target of an image construct is never harvested, while an
image-labelled link contributes its outer page target (and not the image
source). -/
theorem C6_image_targets_excluded :
    ∀ (els : List Inline), (∀ e ∈ els, okInline e) → ∀ (currentUrl baseUrl : Str),
      extractLinks (renderDoc els) currentUrl baseUrl
        = dedupFirst ((navTargets els).filterMap (processLink currentUrl baseUrl)) := by
  intro els h cur base
  unfold extractLinks
  rw [removeImages_renderDoc els h, extractRawLinks_renderDoc els h]

/-- Witness for C6 at the content blob
`Hello ![An image](….jpg)[a](…/page1)[![alt](….jpg)](…/page3)`: the two
image sources are excluded, the plain link and the image-labelled link's
outer page are returned. -/
theorem C6_image_targets_excluded_witness :
    extractLinks
        (renderDoc
          [Inline.text (("Hello ").toList),
           Inline.image (("An image").toList) (("https://example.com/image.jpg").toList),
           Inline.link (("a").toList) (("https://example.com/page1").toList),
           Inline.imageLink (("alt").toList) (("https://example.com/clickable.jpg").toList)
             (("https://example.com/page3").toList)])
        (("https://example.com").toList) (("https://example.com").toList)
      = [("https://example.com/page1").toList, ("https://example.com/page3").toList] :=
  (C6_image_targets_excluded
    [Inline.text (("Hello ").toList),
     Inline.image (("An image").toList) (("https://example.com/image.jpg").toList),
     Inline.link (("a").toList) (("https://example.com/page1").toList),
     Inline.imageLink (("alt").toList) (("https://example.com/clickable.jpg").toList)
       (("https://example.com/page3").toList)]
    (by decide) (("https://example.com").toList) (("https://example.com").toList)).trans
    (by decide)

theorem crawlGfold_of_depth_gt {cfg : Cfg} {g : Nat} (links : List Str) {depth : Nat}
    (st : St) (h : depth > cfg.maxDepth) :
    links.foldl (fun s l => crawlG cfg g l depth s) st = st := by
  induction links with
  | nil => rfl
  | cons l ls ih =>
    show ls.foldl (fun s l => crawlG cfg g l depth s) (crawlG cfg g l depth st) = st
    rw [crawlG_of_guard (Or.inl h)]
    exact ih

/-- At the depth bound, `crawl` marks the URL visited (when new) and its
file-branch recursion is cut by the depth guard; any job it submits carries
the current depth. -/
theorem crawl_at_max {cfg : Cfg} {l : Str} {depth : Nat} (st : St)
    (hd : depth = cfg.maxDepth) :
    (crawl cfg l depth st).visited
        = (if l ∈ st.visited then st.visited else st.visited ++ [l])
      ∧ (∀ j ∈ (crawl cfg l depth st).queue, j ∈ st.queue ∨ j.depth = depth) := by
  have hgas : cfg.maxDepth + 1 - depth = 1 := by omega
  rw [crawl, hgas, crawlG]
  by_cases hv : l ∈ st.visited
  · rw [if_pos (Or.inr hv), if_pos hv]
    exact ⟨rfl, fun j hj => Or.inl hj⟩
  · have hguard : ¬(depth > cfg.maxDepth ∨ l ∈ st.visited) := by
      push_neg
      exact ⟨by omega, hv⟩
    rw [if_neg hguard, if_neg hv]
    cases hfp : getFilePath cfg.name cfg.baseUrl l with
    | none =>
      simp only [hfp]
      exact ⟨rfl, fun j hj => Or.inl hj⟩
    | some fp =>
      simp only [hfp]
      cases hfs : fsGet st.fsys fp with
      | some content =>
        simp only [hfs]
        rw [crawlGfold_of_depth_gt _ _ (by omega)]
        exact ⟨rfl, fun j hj => Or.inl hj⟩
      | none =>
        simp only [hfs]
        refine ⟨rfl, ?_⟩
        intro j hj
        simp only [addRequest, markVisited, List.mem_append, List.mem_singleton] at hj
        rcases hj with hj | rfl
        · exact Or.inl hj
        · exact Or.inr rfl

theorem crawlAll_at_max {cfg : Cfg} (links : List Str) {depth : Nat}
    (hd : depth = cfg.maxDepth) : ∀ (st : St),
    (∀ u, u ∈ (crawlAll cfg links depth st).visited ↔ u ∈ st.visited ∨ u ∈ links)
      ∧ (∀ j ∈ (crawlAll cfg links depth st).queue, j ∈ st.queue ∨ j.depth = depth) := by
  induction links with
  | nil =>
    intro st
    exact ⟨fun u => by simp [crawlAll], fun j hj => Or.inl hj⟩
  | cons l ls ih =>
    intro st
    have hstep := @crawl_at_max cfg l _ st hd
    have hall := ih (crawl cfg l depth st)
    have hre : crawlAll cfg (l :: ls) depth st
        = crawlAll cfg ls depth (crawl cfg l depth st) := rfl
    constructor
    · intro u
      rw [hre, hall.1 u, hstep.1]
      by_cases hv : l ∈ st.visited
      · simp only [if_pos hv, List.mem_cons]
        constructor
        · rintro (h | h)
          · exact Or.inl h
          · exact Or.inr (Or.inr h)
        · rintro (h | rfl | h)
          · exact Or.inl h
          · exact Or.inl hv
          · exact Or.inr h
      · simp only [if_neg hv, List.mem_append, List.mem_singleton, List.mem_cons]
        tauto
    · intro j hj
      rw [hre] at hj
      rcases hall.2 j hj with hj2 | hd2
      · exact hstep.2 j hj2
      · exact Or.inr hd2

theorem drainQueue_deep {cfg : Cfg} :
    ∀ (fuel : Nat) (st : St), (∀ j ∈ st.queue, cfg.maxDepth ≤ j.depth) →
      (drainQueue cfg fuel st).1.visited = st.visited := by
  intro fuel
  induction fuel with
  | zero => intro st _; rfl
  | succ f ih =>
    intro st hq
    rw [drainQueue]
    cases hqe : st.queue with
    | nil => rfl
    | cons j rest =>
      have hdj : cfg.maxDepth ≤ j.depth := hq j (by rw [hqe]; simp)
      obtain ⟨hv, hque, -⟩ := @execJob_deep cfg _ { st with queue := rest } hdj
      by_cases hp : (execJob cfg j { st with queue := rest }).2 = true
      · simp only [hp, if_true]
        exact hv
      · simp only [hp, if_false, Bool.false_eq_true]
        rw [ih _ ?_, hv]
        intro j' hj'
        rw [hque] at hj'
        exact hq j' (by rw [hqe]; exact List.mem_cons_of_mem j hj')

theorem execJob_eq_of_md {cfg : Cfg} {j : Job} {st : St} {md : Str}
    (hmd : cfg.fetchMd j.url = some md) :
    execJob cfg j st
      = (crawlAll cfg (jobLinks cfg j.url) (j.depth + 1)
          { st with
            fsys := saveContent cfg.name cfg.baseUrl (splitHashFst j.url) md st.fsys,
            fetches := st.fetches ++ [FetchEv.primary j.url] ++ [FetchEv.secondary j.url] },
         false) := by
  cases hht : cfg.fetchHtml j.url with
  | none => simp [execJob, jobLinks, hmd, hht]
  | some oc =>
    simp only [execJob, jobLinks, hmd, hht]
    by_cases hh : extractLinksFromHtml cfg.hrefsOf oc j.url cfg.baseUrl = []
    · simp [hh]
    · simp [hh]

theorem drain_crawlAll_visited_mem {cfg : Cfg} (fuel : Nat) (links : List Str)
    {depth : Nat} (hd : depth = cfg.maxDepth) (st : St) (hqe : st.queue = []) :
    ∀ u, u ∈ (drainQueue cfg fuel (crawlAll cfg links depth st)).1.visited
      ↔ u ∈ st.visited ∨ u ∈ links := by
  have hAll := crawlAll_at_max links hd st
  intro u
  rw [drainQueue_deep fuel _ ?_, hAll.1 u]
  intro j hj
  rcases hAll.2 j hj with hj2 | hd2
  · rw [hqe] at hj2
    cases hj2
  · omega

/-- C7.  (1) `crawl(url, depth)` returns immediately, leaving the state
untouched, whenever `depth > maxDepth`.  (2) With `maxDepth = 0` a run
visits only the seed (the seed starts at depth 0 and every recursion is at
depth 1, which the guard cuts), for any fetch outcomes, initial filesystem
and fuel.  (3) With `maxDepth = 1`, a fresh run whose seed fetch succeeds
visits exactly the seed plus the links its job recurses on (each at depth
1); their own links are crawled at depth 2 and cut by the guard. -/
theorem C7_depth_bound :
    (∀ (cfg : Cfg) (url : Str) (depth : Nat) (st : St),
        depth > cfg.maxDepth → crawl cfg url depth st = st)
      ∧ (∀ (cfg : Cfg) (fuel : Nat) (fs0 : Fs), cfg.maxDepth = 0 →
          (startCrawling cfg fuel fs0).1.visited = [cfg.baseUrl])
      ∧ (∀ (cfg : Cfg) (fuel : Nat) (b : JsUrl) (md : Str),
          cfg.maxDepth = 1 → parseUrl cfg.baseUrl = some b →
          cfg.fetchMd cfg.baseUrl = some md →
          ∀ u, u ∈ (startCrawling cfg (fuel + 1) []).1.visited
            ↔ u = cfg.baseUrl ∨ u ∈ jobLinks cfg cfg.baseUrl) := by
  refine ⟨fun cfg url depth st h => crawl_of_depth_gt h, ?_, ?_⟩
  · intro cfg fuel fs0 hm0
    unfold startCrawling
    have hgas : cfg.maxDepth + 1 - 0 = 1 := by omega
    rw [crawl, hgas, crawlG]
    have hguard : ¬((0 : Nat) > cfg.maxDepth ∨ cfg.baseUrl ∈ (⟨[], fs0, [], true, [], []⟩ : St).visited) := by
      push_neg
      exact ⟨by omega, by simp⟩
    rw [if_neg hguard]
    cases hfp : getFilePath cfg.name cfg.baseUrl cfg.baseUrl with
    | none =>
      simp only [hfp]
      rw [drainQueue_deep fuel _ (by intro j hj; simp [markVisited] at hj)]
      rfl
    | some fp =>
      simp only [hfp]
      cases hfs : fsGet (⟨[], fs0, [], true, [], []⟩ : St).fsys fp with
      | some content =>
        simp only [hfs]
        rw [crawlGfold_of_depth_gt _ _ (by omega)]
        rw [drainQueue_deep fuel _ (by intro j hj; simp [markVisited] at hj)]
        rfl
      | none =>
        simp only [hfs]
        rw [drainQueue_deep fuel _ ?_]
        · rfl
        · intro j hj
          simp only [addRequest, markVisited, List.mem_append, List.mem_singleton] at hj
          rcases hj with hj | rfl
          · simp at hj
          · omega
  · intro cfg fuel b md hm1 hb hmd u
    unfold startCrawling
    have hgas : cfg.maxDepth + 1 - 0 = 2 := by omega
    rw [crawl, hgas, crawlG]
    have hguard : ¬((0 : Nat) > cfg.maxDepth ∨ cfg.baseUrl ∈ (⟨[], [], [], true, [], []⟩ : St).visited) := by
      push_neg
      exact ⟨by omega, by simp⟩
    rw [if_neg hguard]
    have hsome : (getFilePath cfg.name cfg.baseUrl cfg.baseUrl).isSome := by
      simp [getFilePath, resolveUrl, hb]
    obtain ⟨fp, hfp⟩ := Option.isSome_iff_exists.mp hsome
    simp only [hfp]
    simp only [show fsGet (⟨[], [], [], true, [], []⟩ : St).fsys fp = none from rfl]
    rw [drainQueue]
    simp only [show (addRequest ⟨cfg.baseUrl, 0⟩
        (markVisited cfg.baseUrl (⟨[], [], [], true, [], []⟩ : St))).queue
      = [⟨cfg.baseUrl, 0⟩] from rfl]
    rw [execJob_eq_of_md hmd]
    simp only [if_false, Bool.false_eq_true]
    rw [drain_crawlAll_visited_mem fuel (jobLinks cfg cfg.baseUrl) (by omega) _ rfl u]
    simp [addRequest, markVisited]

/-- Witness for C7: a depth-exceeded call at a concrete state, a concrete
`maxDepth = 0` run, and membership of the seed in a concrete `maxDepth = 1`
run. -/
theorem C7_depth_bound_witness :
    crawl ⟨fun _ => none, fun _ => none, fun _ => [], [], ("https://e.com").toList, 0⟩
        (("https://e.com/x").toList) 1 ⟨[], [], [], true, [], []⟩
      = ⟨[], [], [], true, [], []⟩
    ∧ (startCrawling ⟨fun _ => none, fun _ => none, fun _ => [],
        [], ("https://e.com").toList, 0⟩ 3 []).1.visited = [("https://e.com").toList]
    ∧ ("https://example.com").toList
        ∈ (startCrawling ⟨fun _ => some [], fun _ => none, fun _ => [],
            [], ("https://example.com").toList, 1⟩ 3 []).1.visited := by
  refine ⟨?_, ?_, ?_⟩
  · exact C7_depth_bound.1 _ _ 1 _ (by decide)
  · exact C7_depth_bound.2.1 _ 3 [] rfl
  · exact (C7_depth_bound.2.2
      ⟨fun _ => some [], fun _ => none, fun _ => [], [], ("https://example.com").toList, 1⟩
      2 ⟨("https").toList, ("example.com").toList, ['/'], [], []⟩ [] rfl (by decide) rfl
      (("https://example.com").toList)).mpr (Or.inl rfl)

theorem invSt_markVisited {st : St} {url : Str} (h : InvSt st) (hv : url ∉ st.visited) :
    InvSt (markVisited url st) := by
  obtain ⟨h1, h2, h3⟩ := h
  refine ⟨?_, h2, ?_⟩
  · show (st.visited ++ [url]).Nodup
    exact List.nodup_append.mpr ⟨h1, List.nodup_singleton _,
      fun a ha hb => hv ((List.mem_singleton.mp hb) ▸ ha)⟩
  · intro j hj
    exact List.mem_append_left _ (h3 j hj)

theorem invSt_addRequest {st : St} {url : Str} {depth : Nat} (h : InvSt st)
    (hv : url ∉ st.visited) : InvSt (addRequest ⟨url, depth⟩ (markVisited url st)) := by
  obtain ⟨h1, h2, h3⟩ := h
  have hnotsub : url ∉ st.submitted.map Job.url := by
    intro hm
    obtain ⟨j, hj, hju⟩ := List.mem_map.mp hm
    exact hv (hju ▸ h3 j hj)
  refine ⟨?_, ?_, ?_⟩
  · show (st.visited ++ [url]).Nodup
    exact List.nodup_append.mpr ⟨h1, List.nodup_singleton _,
      fun a ha hb => hv ((List.mem_singleton.mp hb) ▸ ha)⟩
  · show ((st.submitted ++ [(⟨url, depth⟩ : Job)]).map Job.url).Nodup
    rw [List.map_append]
    exact List.nodup_append.mpr ⟨h2, List.nodup_singleton _,
      fun a ha hb => by
        simp only [List.map_cons, List.map_nil, List.mem_singleton] at hb
        exact hnotsub (hb ▸ ha)⟩
  · intro j hj
    rcases List.mem_append.mp hj with hj1 | hj2
    · exact List.mem_append_left _ (h3 j hj1)
    · rw [List.mem_singleton.mp hj2]
      exact List.mem_append_right _ (List.mem_singleton.mpr rfl)

theorem crawlG_inv (cfg : Cfg) :
    ∀ (gas : Nat) (url : Str) (depth : Nat) (st : St), InvSt st →
      InvSt (crawlG cfg gas url depth st) := by
  intro gas
  induction gas with
  | zero =>
    intro url depth st hInv
    rw [crawlG]
    split
    · exact hInv
    · next hguard =>
      have hv : url ∉ st.visited := fun hm => hguard (Or.inr hm)
      split
      · exact invSt_markVisited hInv hv
      · split
        · exact invSt_markVisited hInv hv
        · exact invSt_addRequest hInv hv
  | succ g ih =>
    intro url depth st hInv
    have hfold : ∀ (links : List Str) (s : St), InvSt s →
        InvSt (links.foldl (fun s l => crawlG cfg g l (depth + 1) s) s) := by
      intro links
      induction links with
      | nil => intro s hs; exact hs
      | cons l ls ihl => intro s hs; exact ihl _ (ih l (depth + 1) s hs)
    rw [crawlG]
    split
    · exact hInv
    · next hguard =>
      have hv : url ∉ st.visited := fun hm => hguard (Or.inr hm)
      split
      · exact invSt_markVisited hInv hv
      · split
        · exact hfold _ _ (invSt_markVisited hInv hv)
        · exact invSt_addRequest hInv hv

theorem crawlAll_inv {cfg : Cfg} (links : List Str) (depth : Nat) :
    ∀ (st : St), InvSt st → InvSt (crawlAll cfg links depth st) := by
  induction links with
  | nil => intro st h; exact h
  | cons l ls ih =>
    intro st h
    exact ih _ (crawlG_inv cfg _ l depth st h)

theorem execJob_inv {cfg : Cfg} {j : Job} {st : St} (h : InvSt st) :
    InvSt (execJob cfg j st).1 := by
  cases hmd : cfg.fetchMd j.url with
  | none =>
    simp only [execJob, hmd]
    exact h
  | some md =>
    cases hht : cfg.fetchHtml j.url with
    | none =>
      simp only [execJob, hmd, hht]
      exact crawlAll_inv _ _ _ h
    | some oc =>
      simp only [execJob, hmd, hht]
      split
      · exact crawlAll_inv _ _ _ h
      · exact crawlAll_inv _ _ _ h

theorem drainQueue_inv {cfg : Cfg} :
    ∀ (fuel : Nat) (st : St), InvSt st → InvSt (drainQueue cfg fuel st).1 := by
  intro fuel
  induction fuel with
  | zero => intro st h; exact h
  | succ f ih =>
    intro st h
    rw [drainQueue]
    cases hqe : st.queue with
    | nil => exact h
    | cons j rest =>
      have hstep : InvSt (execJob cfg j { st with queue := rest }).1 :=
        execJob_inv h
      by_cases hp : (execJob cfg j { st with queue := rest }).2 = true
      · simp only [hp, if_true]
        exact hstep
      · simp only [hp, if_false, Bool.false_eq_true]
        exact ih _ hstep

/-- C8.  In the embedded orchestrator the visited-set membership check and
the insertion are a single uninterrupted step at the top of `crawl`
(`crawlG`), performed before any job is submitted; consequently, for every
run configuration, fetch oracle, initial filesystem and fuel: no URL is ever
added to the visited set twice, no target is ever submitted to the scheduler
twice — even when it is discovered again through a different parent page —
and every submitted target had been marked visited when it was submitted. -/
theorem C8_visited_add_once :
    ∀ (cfg : Cfg) (fuel : Nat) (fs0 : Fs),
      (startCrawling cfg fuel fs0).1.visited.Nodup
        ∧ ((startCrawling cfg fuel fs0).1.submitted.map Job.url).Nodup
        ∧ ∀ j ∈ (startCrawling cfg fuel fs0).1.submitted,
            j.url ∈ (startCrawling cfg fuel fs0).1.visited := by
  intro cfg fuel fs0
  have h0 : InvSt (⟨[], fs0, [], true, [], []⟩ : St) := by
    refine ⟨List.nodup_nil, by simp, by simp⟩
  exact drainQueue_inv fuel _ (crawlG_inv cfg _ cfg.baseUrl 0 _ h0)


theorem inter_singleton (a : Str) : List.intercalate ['/'] [a] = a := by
  simp [List.intercalate]

theorem inter_cons_cons (a b : Str) (t : List Str) :
    List.intercalate ['/'] (a :: b :: t) = a ++ '/' :: List.intercalate ['/'] (b :: t) := by
  simp [List.intercalate]

theorem inter_append (A B : List Str) (hA : A ≠ []) (hB : B ≠ []) :
    List.intercalate ['/'] (A ++ B)
      = List.intercalate ['/'] A ++ '/' :: List.intercalate ['/'] B := by
  induction A with
  | nil => cases hA rfl
  | cons a t ih =>
    cases t with
    | nil =>
      cases B with
      | nil => cases hB rfl
      | cons b u => simp [inter_cons_cons, inter_singleton]
    | cons a2 t2 =>
      calc List.intercalate ['/'] ((a :: a2 :: t2) ++ B)
          = a ++ '/' :: List.intercalate ['/'] ((a2 :: t2) ++ B) := by
            rw [show (a :: a2 :: t2) ++ B = a :: a2 :: (t2 ++ B) from rfl]
            exact inter_cons_cons a a2 (t2 ++ B)
        _ = a ++ '/' :: (List.intercalate ['/'] (a2 :: t2) ++ '/' :: List.intercalate ['/'] B) := by
            rw [ih (by simp)]
        _ = List.intercalate ['/'] (a :: a2 :: t2) ++ '/' :: List.intercalate ['/'] B := by
            rw [inter_cons_cons]
            simp

theorem inter_concat_suffix (A : List Str) (b c : Str) :
    List.intercalate ['/'] (A ++ [b ++ c])
      = List.intercalate ['/'] (A ++ [b]) ++ c := by
  cases A with
  | nil => simp [inter_singleton]
  | cons a t =>
    rw [inter_append (a :: t) [b ++ c] (by simp) (by simp),
        inter_append (a :: t) [b] (by simp) (by simp), inter_singleton, inter_singleton]
    simp

theorem mem_inter_char {c : Char} {l : List Str} (h : c ∈ List.intercalate ['/'] l) :
    c = '/' ∨ ∃ s ∈ l, c ∈ s := by
  induction l with
  | nil => simp [List.intercalate] at h
  | cons a t ih =>
    cases t with
    | nil =>
      rw [inter_singleton] at h
      exact Or.inr ⟨a, by simp, h⟩
    | cons b u =>
      rw [inter_cons_cons] at h
      rcases List.mem_append.mp h with h1 | h2
      · exact Or.inr ⟨a, by simp, h1⟩
      · rcases List.mem_cons.mp h2 with rfl | h3
        · exact Or.inl rfl
        · rcases ih h3 with h4 | ⟨s, hs, hc⟩
          · exact Or.inl h4
          · exact Or.inr ⟨s, List.mem_cons_of_mem a hs, hc⟩

theorem inter_ne_nil {l : List Str} (h0 : l ≠ []) (h : ∀ s ∈ l, s ≠ []) :
    List.intercalate ['/'] l ≠ [] := by
  cases l with
  | nil => cases h0 rfl
  | cons a t =>
    cases t with
    | nil =>
      rw [inter_singleton]
      exact h a (by simp)
    | cons b u =>
      rw [inter_cons_cons]
      simp

theorem splitOn_slash_inter {l : List Str} (h : ∀ s ∈ l, '/' ∉ s) (h0 : l ≠ []) :
    (List.intercalate ['/'] l).splitOn '/' = l :=
  List.splitOn_intercalate l '/' h h0

theorem splitOn_slash_cons (s : Str) :
    ('/' :: s).splitOn '/' = [] :: s.splitOn '/' := by
  simp [List.splitOn, List.splitOnP_cons]

theorem rdsAux_no_dots :
    ∀ (l acc : List Str), (∀ s ∈ l, s ≠ ['.'] ∧ s ≠ ['.', '.']) →
      rdsAux acc l = acc.reverse ++ l := by
  intro l
  induction l with
  | nil =>
    intro acc _
    simp [rdsAux]
  | cons seg rest ih =>
    intro acc h
    have h1 : seg ≠ ['.'] := (h seg (by simp)).1
    have h2 : seg ≠ ['.', '.'] := (h seg (by simp)).2
    simp only [rdsAux]
    rw [if_neg h1, if_neg h2, ih (seg :: acc) (fun s hs => h s (by simp [hs]))]
    simp

theorem pnAux_no_dotdot (isAbs : Bool) :
    ∀ (l acc : List Str), (∀ s ∈ l, s ≠ ['.', '.']) →
      pnAux isAbs acc l = acc.reverse ++ l := by
  intro l
  induction l with
  | nil =>
    intro acc _
    simp [pnAux]
  | cons seg rest ih =>
    intro acc h
    have h2 : seg ≠ ['.', '.'] := h seg (by simp)
    simp only [pnAux]
    rw [if_neg h2, ih (seg :: acc) (fun s hs => h s (by simp [hs]))]
    simp

theorem urlNormPath_clean {segs : List Str}
    (h : ∀ s ∈ segs, s ≠ ['.'] ∧ s ≠ ['.', '.'] ∧ '/' ∉ s) :
    urlNormPath ('/' :: List.intercalate ['/'] segs) = '/' :: List.intercalate ['/'] segs := by
  cases segs with
  | nil => decide
  | cons a t =>
    unfold urlNormPath
    rw [if_pos (by simp)]
    have hsp : (List.intercalate ['/'] (a :: t)).splitOn '/' = a :: t :=
      splitOn_slash_inter (fun s hs => (h s hs).2.2) (by simp)
    simp only [List.drop_succ_cons, List.drop_zero]
    rw [hsp, rdsAux_no_dots (a :: t) [] (fun s hs => And.intro (h s hs).1 (h s hs).2.1)]
    simp

theorem take_one_append {a : Str} (b : Str) (ha : a ≠ []) : (a ++ b).take 1 = a.take 1 := by
  cases a with
  | nil => cases ha rfl
  | cons c t => simp

theorem take_one_ne_slash {a : Str} (h : '/' ∉ a) : a.take 1 ≠ ['/'] := by
  cases a with
  | nil => simp
  | cons c t =>
    simp only [List.take_succ_cons, List.take_zero]
    intro hc
    injection hc with h1 _
    exact h (by simp [h1])

theorem getLast_inter_concat {A : List Str} {b : Str} (hb : b ≠ []) :
    (List.intercalate ['/'] (A ++ [b])).getLast? = b.getLast? := by
  cases A with
  | nil => simp [inter_singleton]
  | cons a t =>
    rw [inter_append (a :: t) [b] (by simp) (by simp), inter_singleton]
    rw [show List.intercalate ['/'] (a :: t) ++ '/' :: b
          = (List.intercalate ['/'] (a :: t) ++ ['/']) ++ b by simp]
    rw [List.getLast?_append, List.getLast?_eq_getLast b hb]
    rfl

theorem getLast_cons_inter_concat {A : List Str} {b : Str} (hb : b ≠ []) :
    ('/' :: List.intercalate ['/'] (A ++ [b])).getLast? = some (b.getLast hb) := by
  rw [show ('/' :: List.intercalate ['/'] (A ++ [b]))
        = ['/'] ++ List.intercalate ['/'] (A ++ [b]) from rfl,
      List.getLast?_append, getLast_inter_concat hb, List.getLast?_eq_getLast b hb]
  rfl

theorem getLast_cons_inter_concat_nil (A : List Str) :
    ('/' :: List.intercalate ['/'] (A ++ [[]])).getLast? = some '/' := by
  cases A with
  | nil => decide
  | cons a t =>
    rw [inter_append (a :: t) [[]] (by simp) (by simp), inter_singleton]
    rw [show '/' :: (List.intercalate ['/'] (a :: t) ++ '/' :: [])
          = ('/' :: List.intercalate ['/'] (a :: t)) ++ ['/'] from rfl]
    exact List.getLast?_concat _

theorem pathNormalize_abs_noslash (A : List Str) (b : Str)
    (h : ∀ s ∈ A ++ [b], '/' ∉ s ∧ s ≠ ['.'] ∧ s ≠ ['.', '.'])
    (hb : b ≠ []) :
    pathNormalize ('/' :: List.intercalate ['/'] (A ++ [b]))
      = '/' :: List.intercalate ['/'] ((A ++ [b]).filter (fun s => decide (s ≠ []))) := by
  have hglne : ¬ ('/' :: List.intercalate ['/'] (A ++ [b])).getLast? = some '/' := by
    rw [getLast_cons_inter_concat hb]
    intro hEq
    have hmem : b.getLast hb ∈ b := List.getLast_mem hb
    exact (h b (by simp)).1 (Option.some.inj hEq ▸ hmem)
  have hsp : ('/' :: List.intercalate ['/'] (A ++ [b])).splitOn '/' = [] :: (A ++ [b]) := by
    rw [splitOn_slash_cons, splitOn_slash_inter (fun s hs => (h s hs).1) (by simp)]
  have hfil : ([] :: (A ++ [b])).filter (fun x => decide (x ≠ [] ∧ x ≠ ['.']))
      = (A ++ [b]).filter (fun s => decide (s ≠ [])) := by
    simp only [List.filter_cons]
    rw [if_neg (by simp)]
    exact List.filter_congr (fun x hx => by simp [(h x hx).2.1])
  have hpn : ∀ (ab : Bool), pnAux ab [] ((A ++ [b]).filter (fun s => decide (s ≠ [])))
      = (A ++ [b]).filter (fun s => decide (s ≠ [])) := fun ab => by
    have := pnAux_no_dotdot ab ((A ++ [b]).filter (fun s => decide (s ≠ []))) []
      (fun s hs => (h s (List.mem_filter.mp hs).1).2.2)
    simpa using this
  unfold pathNormalize
  rw [if_neg (by simp : ¬('/' :: List.intercalate ['/'] (A ++ [b])) = [])]
  simp only [hsp, hfil]
  rw [hpn]
  simp [hglne, List.take_succ_cons]

theorem pathNormalize_abs_trail (A : List Str)
    (h : ∀ s ∈ A ++ [[]], '/' ∉ s ∧ s ≠ ['.'] ∧ s ≠ ['.', '.'])
    (hkept : (A ++ [[]]).filter (fun s => decide (s ≠ [])) ≠ []) :
    pathNormalize ('/' :: List.intercalate ['/'] (A ++ [[]]))
      = '/' :: List.intercalate ['/'] ((A ++ [[]]).filter (fun s => decide (s ≠ []))) ++ ['/'] := by
  have hgl : ('/' :: List.intercalate ['/'] (A ++ [[]])).getLast? = some '/' :=
    getLast_cons_inter_concat_nil A
  have hsp : ('/' :: List.intercalate ['/'] (A ++ [[]])).splitOn '/' = [] :: (A ++ [[]]) := by
    rw [splitOn_slash_cons, splitOn_slash_inter (fun s hs => (h s hs).1) (by simp)]
  have hfil : ([] :: (A ++ [[]])).filter (fun x => decide (x ≠ [] ∧ x ≠ ['.']))
      = (A ++ [[]]).filter (fun s => decide (s ≠ [])) := by
    simp only [List.filter_cons]
    rw [if_neg (by simp)]
    exact List.filter_congr (fun x hx => by simp [(h x hx).2.1])
  have hpn : ∀ (ab : Bool), pnAux ab [] ((A ++ [[]]).filter (fun s => decide (s ≠ [])))
      = (A ++ [[]]).filter (fun s => decide (s ≠ [])) := fun ab => by
    have := pnAux_no_dotdot ab ((A ++ [[]]).filter (fun s => decide (s ≠ []))) []
      (fun s hs => (h s (List.mem_filter.mp hs).1).2.2)
    simpa using this
  unfold pathNormalize
  rw [if_neg (by simp : ¬('/' :: List.intercalate ['/'] (A ++ [[]])) = [])]
  simp only [hsp, hfil]
  rw [hpn]
  simp [hgl, List.take_succ_cons]
  simpa using hkept

theorem pathNormalize_rel (A : List Str) (b : Str)
    (h : ∀ s ∈ A ++ [b], s ≠ [] ∧ '/' ∉ s ∧ s ≠ ['.', '.'])
    (hkept : (A ++ [b]).filter (fun s => decide (s ≠ ['.'])) ≠ []) :
    pathNormalize (List.intercalate ['/'] (A ++ [b]))
      = List.intercalate ['/'] ((A ++ [b]).filter (fun s => decide (s ≠ ['.']))) := by
  have hb : b ≠ [] := (h b (by simp)).1
  have hne : ¬ List.intercalate ['/'] (A ++ [b]) = [] :=
    inter_ne_nil (by simp) (fun s hs => (h s hs).1)
  have habs : ¬ (List.intercalate ['/'] (A ++ [b])).take 1 = ['/'] := by
    cases A with
    | nil =>
      rw [List.nil_append, inter_singleton]
      exact take_one_ne_slash (h b (by simp)).2.1
    | cons a t =>
      rw [show (a :: t) ++ [b] = a :: (t ++ [b]) from rfl]
      cases ht : t ++ [b] with
      | nil => simp at ht
      | cons x xs =>
        rw [inter_cons_cons, take_one_append _ (h a (by simp)).1]
        exact take_one_ne_slash (h a (by simp)).2.1
  have hglne : ¬ (List.intercalate ['/'] (A ++ [b])).getLast? = some '/' := by
    rw [getLast_inter_concat hb, List.getLast?_eq_getLast b hb]
    intro hEq
    have hmem : b.getLast hb ∈ b := List.getLast_mem hb
    exact (h b (by simp)).2.1 (Option.some.inj hEq ▸ hmem)
  have hsp : (List.intercalate ['/'] (A ++ [b])).splitOn '/' = A ++ [b] :=
    splitOn_slash_inter (fun s hs => (h s hs).2.1) (by simp)
  have hfil : (A ++ [b]).filter (fun x => decide (x ≠ [] ∧ x ≠ ['.']))
      = (A ++ [b]).filter (fun s => decide (s ≠ ['.'])) :=
    List.filter_congr (fun x hx => by simp [(h x hx).1])
  have hpn : ∀ (ab : Bool), pnAux ab [] ((A ++ [b]).filter (fun s => decide (s ≠ ['.'])))
      = (A ++ [b]).filter (fun s => decide (s ≠ ['.'])) := fun ab => by
    have := pnAux_no_dotdot ab ((A ++ [b]).filter (fun s => decide (s ≠ ['.']))) []
      (fun s hs => (h s (List.mem_filter.mp hs).1).2.2)
    simpa using this
  have hkept2 : ¬ List.intercalate ['/'] ((A ++ [b]).filter (fun s => decide (s ≠ ['.']))) = [] :=
    inter_ne_nil hkept (fun s hs => (h s (List.mem_filter.mp hs).1).1)
  unfold pathNormalize
  rw [if_neg hne]
  simp only [hsp, hfil]
  rw [hpn]
  simp [habs, hglne]
  intro hcontra
  exact absurd hcontra (by simpa using hkept2)

theorem parseUrl_mkAbsUrl (host : Str) (segs : List Str)
    (hh : host ≠ []) (hhc : ∀ c ∈ host, c ≠ '/' ∧ c ≠ '?' ∧ c ≠ '#')
    (hs : ∀ s ∈ segs, cleanSeg s) :
    parseUrl (mkAbsUrl host segs)
      = some ⟨("https").toList, host, '/' :: List.intercalate ['/'] segs, [], []⟩ := by
  have hmk : mkAbsUrl host segs
      = ("https://").toList ++ (host ++ '/' :: List.intercalate ['/'] segs) := by
    unfold mkAbsUrl
    simp
  have htake : (mkAbsUrl host segs).take 8 = ("https://").toList := by
    rw [hmk]
    exact List.take_left' (by decide)
  have hdrop : (mkAbsUrl host segs).drop 8 = host ++ '/' :: List.intercalate ['/'] segs := by
    rw [hmk]
    exact List.drop_left' (by decide)
  have h1 : takeUntilP (fun c => c = '/' || c = '?' || c = '#')
      (host ++ '/' :: List.intercalate ['/'] segs)
      = (host, '/' :: List.intercalate ['/'] segs) := by
    rw [takeUntilP_append_of_all_not _ _ _
      (fun c hc => by simp [(hhc c hc).1, (hhc c hc).2.1, (hhc c hc).2.2])]
    simp [takeUntilP]
  have h2 : takeUntilP (fun c => c = '?' || c = '#') ('/' :: List.intercalate ['/'] segs)
      = ('/' :: List.intercalate ['/'] segs, []) := by
    apply takeUntilP_of_all_not
    intro c hc
    rcases List.mem_cons.mp hc with rfl | hc2
    · simp
    · rcases mem_inter_char hc2 with rfl | hex
      · simp
      · obtain ⟨s, hss, hcs⟩ := hex
        have hq := ((hs s hss).2.2.2 c hcs).2.1
        have hh2 := ((hs s hss).2.2.2 c hcs).2.2
        simp [hq, hh2]
  have hnorm : urlNormPath ('/' :: List.intercalate ['/'] segs)
      = '/' :: List.intercalate ['/'] segs :=
    urlNormPath_clean (fun s hss =>
      ⟨(hs s hss).2.1, (hs s hss).2.2.1, fun hmem => ((hs s hss).2.2.2 '/' hmem).1 rfl⟩)
  simp only [parseUrl, htake, hdrop, h1, h2]
  simp [hh, takeUntil, hnorm]

theorem resolveUrl_of_parseUrl {link : Str} {u : JsUrl} (base : JsUrl)
    (h : parseUrl link = some u) : resolveUrl link base = some u := by
  simp only [resolveUrl, h]

theorem pathJoin_pair (p q : Str) (hp : p ≠ []) (hq : q ≠ []) :
    pathJoin [p, q] = pathNormalize (p ++ '/' :: q) := by
  unfold pathJoin
  have hfil : [p, q].filter (fun x => decide (x ≠ [])) = [p, q] := by
    simp [hp, hq]
  simp only [hfil, inter_cons_cons, inter_singleton]
  rw [if_neg (by simp)]

theorem pathJoin_triple (p q r : Str) (hp : p ≠ []) (hq : q ≠ []) (hr : r ≠ []) :
    pathJoin [p, q, r] = pathNormalize (p ++ '/' :: (q ++ '/' :: r)) := by
  unfold pathJoin
  have hfil : [p, q, r].filter (fun x => decide (x ≠ [])) = [p, q, r] := by
    simp [hp, hq, hr]
  simp only [hfil, inter_cons_cons, inter_singleton]
  rw [if_neg (by simp)]

theorem inter_abs_merge (X Y : List Str) (hX : X ≠ []) (hY : Y ≠ []) :
    List.intercalate ['/'] ((X ++ [[]]) ++ Y)
      = List.intercalate ['/'] X ++ '/' :: '/' :: List.intercalate ['/'] Y := by
  rw [show (X ++ [[]]) ++ Y = X ++ ([[]] ++ Y) by simp,
      inter_append X ([[]] ++ Y) hX (by simp),
      inter_append [[]] Y (by simp) hY, inter_singleton]
  simp

theorem cleanSeg_props {s : Str} (hc : cleanSeg s) : '/' ∉ s ∧ s ≠ ['.'] ∧ s ≠ ['.', '.'] :=
  ⟨fun hm => (hc.2.2.2 '/' hm).1 rfl, hc.2.1, hc.2.2.1⟩

theorem filter_ne_nil_eq_self {l : List Str} (h : ∀ s ∈ l, cleanSeg s) :
    l.filter (fun s => decide (s ≠ [])) = l :=
  List.filter_eq_self.mpr (fun s hs => by simp [(h s hs).1])

theorem filter_ne_nil_singleton_nil :
    ([[]] : List Str).filter (fun s => decide (s ≠ [])) = [] := by
  decide

theorem pathJoin_pair_abs (bs us : List Str)
    (hb : ∀ s ∈ bs, cleanSeg s) (hu : ∀ s ∈ us, cleanSeg s) :
    pathJoin ['/' :: List.intercalate ['/'] bs, '/' :: List.intercalate ['/'] us]
      = '/' :: List.intercalate ['/'] (bs ++ us)
        ++ (if us = [] ∧ bs ≠ [] then ['/'] else []) := by
  rw [pathJoin_pair _ _ (by simp) (by simp)]
  rcases List.eq_nil_or_concat' us with rfl | hus
  · rcases List.eq_nil_or_concat' bs with rfl | hbs
    · decide
    · obtain ⟨B, bb, rfl⟩ := hbs
      have hprops : ∀ s ∈ ((B ++ [bb]) ++ [[]]) ++ [[]], '/' ∉ s ∧ s ≠ ['.'] ∧ s ≠ ['.', '.'] := by
        intro s hs
        simp only [List.mem_append, List.mem_singleton] at hs
        rcases hs with ((hB | rfl) | rfl) | rfl
        · exact cleanSeg_props (hb s (by simp [hB]))
        · exact cleanSeg_props (hb s (by simp))
        · simp
        · simp
      have hkept : ((((B ++ [bb]) ++ [[]]) ++ [[]] : List (List Char))).filter
          (fun s => decide (s ≠ [])) ≠ [] := by
        have hbb : bb ≠ [] := (hb bb (by simp)).1
        simp [List.filter_append, hbb]
      have harg : ('/' :: List.intercalate ['/'] (B ++ [bb])) ++ '/' ::
            ('/' :: List.intercalate ['/'] ([] : List Str))
          = '/' :: List.intercalate ['/'] (((B ++ [bb]) ++ [[]]) ++ [[]]) := by
        rw [inter_abs_merge (B ++ [bb]) [[]] (by simp) (by simp), inter_singleton]
        simp [List.intercalate]
      rw [harg, pathNormalize_abs_trail ((B ++ [bb]) ++ [[]]) hprops hkept]
      have hfb : (B ++ [bb]).filter (fun s => decide (s ≠ [])) = B ++ [bb] :=
        filter_ne_nil_eq_self hb
      simp only [List.filter_append, filter_ne_nil_singleton_nil, hfb]
      simp
  · obtain ⟨U, ub, rfl⟩ := hus
    have hub : ub ≠ [] := (hu ub (by simp)).1
    have hfU : U.filter (fun s => decide (s ≠ [])) = U :=
      filter_ne_nil_eq_self (fun s hs => hu s (by simp [hs]))
    have hfub : [ub].filter (fun s => decide (s ≠ [])) = [ub] :=
      filter_ne_nil_eq_self (fun s hs => hu s (by simp [List.mem_singleton.mp hs]))
    rcases List.eq_nil_or_concat' bs with rfl | hbs
    · have hprops : ∀ s ∈ (([[]] ++ [[]]) ++ U) ++ [ub], '/' ∉ s ∧ s ≠ ['.'] ∧ s ≠ ['.', '.'] := by
        intro s hs
        simp only [List.mem_append, List.mem_singleton] at hs
        rcases hs with ((rfl | rfl) | hU) | rfl
        · simp
        · simp
        · exact cleanSeg_props (hu s (by simp [hU]))
        · exact cleanSeg_props (hu s (by simp))
      have harg : ('/' :: List.intercalate ['/'] ([] : List Str)) ++ '/' ::
            ('/' :: List.intercalate ['/'] (U ++ [ub]))
          = '/' :: List.intercalate ['/'] ((([[]] ++ [[]]) ++ U) ++ [ub]) := by
        rw [show (([[]] ++ [[]]) ++ U) ++ [ub] = ([[]] ++ [[]]) ++ (U ++ [ub]) by simp,
            inter_abs_merge [[]] (U ++ [ub]) (by simp) (by simp), inter_singleton]
        simp [List.intercalate]
      rw [harg, pathNormalize_abs_noslash (([[]] ++ [[]]) ++ U) ub hprops hub]
      simp only [List.filter_append, filter_ne_nil_singleton_nil, hfU, hfub]
      simp
    · obtain ⟨B, bb, rfl⟩ := hbs
      have hprops : ∀ s ∈ (((B ++ [bb]) ++ [[]]) ++ U) ++ [ub],
          '/' ∉ s ∧ s ≠ ['.'] ∧ s ≠ ['.', '.'] := by
        intro s hs
        simp only [List.mem_append, List.mem_singleton] at hs
        rcases hs with (((hB | rfl) | rfl) | hU) | rfl
        · exact cleanSeg_props (hb s (by simp [hB]))
        · exact cleanSeg_props (hb s (by simp))
        · simp
        · exact cleanSeg_props (hu s (by simp [hU]))
        · exact cleanSeg_props (hu s (by simp))
      have harg : ('/' :: List.intercalate ['/'] (B ++ [bb])) ++ '/' ::
            ('/' :: List.intercalate ['/'] (U ++ [ub]))
          = '/' :: List.intercalate ['/'] ((((B ++ [bb]) ++ [[]]) ++ U) ++ [ub]) := by
        rw [show (((B ++ [bb]) ++ [[]]) ++ U) ++ [ub] = ((B ++ [bb]) ++ [[]]) ++ (U ++ [ub])
              by simp,
            inter_abs_merge (B ++ [bb]) (U ++ [ub]) (by simp) (by simp)]
        simp
      rw [harg, pathNormalize_abs_noslash (((B ++ [bb]) ++ [[]]) ++ U) ub hprops hub]
      have hfb : (B ++ [bb]).filter (fun s => decide (s ≠ [])) = B ++ [bb] :=
        filter_ne_nil_eq_self hb
      simp only [List.filter_append, filter_ne_nil_singleton_nil, hfb, hfU, hfub]
      simp

theorem reverse_inter_concat (init : List Str) (lastSeg : Str) :
    (List.intercalate ['/'] (init ++ [lastSeg])).reverse
      = lastSeg.reverse
        ++ (if init = [] then [] else '/' :: (List.intercalate ['/'] init).reverse) := by
  cases init with
  | nil => simp [inter_singleton]
  | cons a t =>
    rw [inter_append (a :: t) [lastSeg] (by simp) (by simp), inter_singleton]
    simp

theorem dropWhile_append_all {p : Char → Bool} (A B : Str) (h : ∀ a ∈ A, p a = true) :
    (A ++ B).dropWhile p = B.dropWhile p := by
  induction A with
  | nil => simp
  | cons a t ih =>
    rw [List.cons_append, List.dropWhile_cons_of_pos (h a (by simp)),
        ih (fun x hx => h x (by simp [hx]))]

theorem takeWhile_append_stop {p : Char → Bool} (A : Str) {b : Char} (B : Str)
    (h : ∀ a ∈ A, p a = true) (hb : p b = false) :
    (A ++ b :: B).takeWhile p = A := by
  induction A with
  | nil =>
    rw [List.nil_append]
    exact List.takeWhile_cons_of_neg (by simp [hb])
  | cons a t ih =>
    rw [List.cons_append, List.takeWhile_cons_of_pos (h a (by simp)),
        ih (fun x hx => h x (by simp [hx]))]

theorem takeWhile_all {p : Char → Bool} (A : Str) (h : ∀ a ∈ A, p a = true) :
    A.takeWhile p = A := by
  induction A with
  | nil => simp
  | cons a t ih =>
    rw [List.takeWhile_cons_of_pos (h a (by simp)), ih (fun x hx => h x (by simp [hx]))]

theorem dropWhile_head_false {p : Char → Bool} {a : Char} (A : Str) (ha : p a = false) :
    (a :: A).dropWhile p = a :: A :=
  List.dropWhile_cons_of_neg (by simp [ha])

theorem drop_slashes_rev (init : List Str) (lastSeg : Str) (trail : Str)
    (hlast : lastSeg ≠ []) (hlc : '/' ∉ lastSeg)
    (htrail : trail = [] ∨ trail = ['/']) :
    ((List.intercalate ['/'] (init ++ [lastSeg]) ++ trail).reverse).dropWhile
        (fun c => decide (c = '/'))
      = lastSeg.reverse
        ++ (if init = [] then [] else '/' :: (List.intercalate ['/'] init).reverse) := by
  obtain ⟨c, cs, hcs⟩ : ∃ c cs, lastSeg.reverse = c :: cs := by
    cases hr : lastSeg.reverse with
    | nil => exact absurd (List.reverse_eq_nil_iff.mp hr) hlast
    | cons c cs => exact ⟨c, cs, rfl⟩
  have hcne : c ≠ '/' := by
    intro hEq
    apply hlc
    have hmem : c ∈ lastSeg.reverse := by simp [hcs]
    exact hEq ▸ List.mem_reverse.mp hmem
  rw [List.reverse_append, reverse_inter_concat]
  generalize (if init = [] then ([] : Str)
      else '/' :: (List.intercalate ['/'] init).reverse) = R
  have hshape : lastSeg.reverse ++ R = c :: (cs ++ R) := by
    rw [hcs]
    rfl
  rcases htrail with rfl | rfl
  · simp only [List.reverse_nil, List.nil_append]
    rw [hshape]
    exact dropWhile_head_false _ (by simp [hcne])
  · simp only [List.reverse_cons, List.reverse_nil, List.nil_append]
    rw [show (['/'] : Str) ++ (lastSeg.reverse ++ R) = '/' :: (lastSeg.reverse ++ R) from rfl,
        List.dropWhile_cons_of_pos (by simp), hshape]
    exact dropWhile_head_false _ (by simp [hcne])

theorem basename_clean (init : List Str) (lastSeg : Str) (trail : Str)
    (h : ∀ s ∈ init ++ [lastSeg], s ≠ [] ∧ '/' ∉ s)
    (htrail : trail = [] ∨ trail = ['/']) :
    basename (List.intercalate ['/'] (init ++ [lastSeg]) ++ trail) = lastSeg := by
  have hlast := (h lastSeg (by simp)).1
  have hlc := (h lastSeg (by simp)).2
  have hall : ∀ a ∈ lastSeg.reverse, (fun c => decide (c ≠ '/')) a = true := by
    intro a ha
    have hmem : a ∈ lastSeg := List.mem_reverse.mp ha
    simp
    intro hEq
    exact hlc (hEq ▸ hmem)
  unfold basename
  rw [drop_slashes_rev init lastSeg trail hlast hlc htrail]
  by_cases hinit : init = []
  · rw [if_pos hinit, List.append_nil, takeWhile_all _ hall, List.reverse_reverse]
  · rw [if_neg hinit, takeWhile_append_stop _ _ hall (by simp), List.reverse_reverse]

theorem dirname_clean (init : List Str) (lastSeg : Str) (trail : Str)
    (h : ∀ s ∈ init ++ [lastSeg], s ≠ [] ∧ '/' ∉ s)
    (htrail : trail = [] ∨ trail = ['/']) :
    dirname (List.intercalate ['/'] (init ++ [lastSeg]) ++ trail)
      = if init = [] then ['.'] else List.intercalate ['/'] init := by
  have hlast := (h lastSeg (by simp)).1
  have hlc := (h lastSeg (by simp)).2
  have hall : ∀ a ∈ lastSeg.reverse, (fun c => decide (c ≠ '/')) a = true := by
    intro a ha
    have hmem : a ∈ lastSeg := List.mem_reverse.mp ha
    simp
    intro hEq
    exact hlc (hEq ▸ hmem)
  have hne : List.intercalate ['/'] (init ++ [lastSeg]) ++ trail ≠ [] := by
    intro hE
    exact @inter_ne_nil (init ++ [lastSeg]) (by simp) (fun s hs => (h s hs).1)
      (List.append_eq_nil.mp hE).1
  have hd1 := drop_slashes_rev init lastSeg trail hlast hlc htrail
  have hmain : dirname (List.intercalate ['/'] (init ++ [lastSeg]) ++ trail)
      = (if ((((List.intercalate ['/'] (init ++ [lastSeg]) ++ trail).reverse.dropWhile
              (fun c => decide (c = '/'))).dropWhile (fun c => decide (c ≠ '/'))).drop 1).reverse
            = []
          then (if (List.intercalate ['/'] (init ++ [lastSeg]) ++ trail).take 1 = ['/']
                then ['/'] else ['.'])
          else ((((List.intercalate ['/'] (init ++ [lastSeg]) ++ trail).reverse.dropWhile
              (fun c => decide (c = '/'))).dropWhile (fun c => decide (c ≠ '/'))).drop 1).reverse) := by
    unfold dirname
    rw [if_neg hne]
  by_cases hinit : init = []
  · subst hinit
    simp only [List.nil_append] at hmain hd1 ⊢
    rw [if_pos trivial, List.append_nil] at hd1
    have hd2 : lastSeg.reverse.dropWhile (fun c => decide (c ≠ '/')) = [] := by
      have hstep := dropWhile_append_all lastSeg.reverse [] hall
      simpa using hstep
    have htake : ¬ (List.intercalate ['/'] [lastSeg] ++ trail).take 1 = ['/'] := by
      rw [inter_singleton, take_one_append trail hlast]
      exact take_one_ne_slash hlc
    rw [hmain, hd1, hd2, List.drop_nil, List.reverse_nil, if_pos rfl, if_neg htake, if_pos trivial]
  · rw [if_neg hinit] at hd1
    have hd2 : (lastSeg.reverse ++ '/' :: (List.intercalate ['/'] init).reverse).dropWhile
        (fun c => decide (c ≠ '/')) = '/' :: (List.intercalate ['/'] init).reverse := by
      rw [dropWhile_append_all lastSeg.reverse _ hall]
      exact dropWhile_head_false _ (by simp)
    have hresne : List.intercalate ['/'] init ≠ [] :=
      @inter_ne_nil init hinit (fun s hs => (h s (by simp [hs])).1)
    rw [hmain, hd1, hd2, List.drop_succ_cons, List.drop_zero, List.reverse_reverse,
        if_neg hresne, if_neg hinit]

theorem stripLeadingSlash_cons (X : Str) : stripLeadingSlash ('/' :: X) = X := by
  unfold stripLeadingSlash
  simp

theorem pathJoin_docs_dot (name : Str) (hname : cleanSeg name) :
    pathJoin [("./docs").toList, name, ['.']]
      = List.intercalate ['/'] [("docs").toList, name] := by
  rw [pathJoin_triple _ _ _ (by decide) hname.1 (by decide)]
  have hid : ("./docs").toList ++ '/' :: (name ++ '/' :: ['.'])
      = List.intercalate ['/'] ([['.'], ("docs").toList, name] ++ [['.']]) := by
    rw [inter_append [['.'], ("docs").toList, name] [['.']] (by simp) (by simp),
        show ("./docs").toList = '.' :: '/' :: ("docs").toList by decide]
    simp [inter_cons_cons, inter_singleton]
  have hprops : ∀ s ∈ [['.'], ("docs").toList, name] ++ [['.']],
      s ≠ [] ∧ '/' ∉ s ∧ s ≠ ['.', '.'] := by
    intro s hs
    simp only [List.mem_append, List.mem_cons, List.mem_singleton, List.not_mem_nil,
      or_false] at hs
    rcases hs with (rfl | rfl | rfl) | rfl
    · exact ⟨by simp, by simp, by simp⟩
    · exact ⟨by decide, by decide, by decide⟩
    · exact ⟨hname.1, fun hm => (hname.2.2.2 '/' hm).1 rfl, hname.2.2.1⟩
    · exact ⟨by simp, by simp, by simp⟩
  have hkeptEq : ([['.'], ("docs").toList, name] ++ [['.']]).filter
      (fun s => decide (s ≠ ['.'])) = [("docs").toList, name] := by
    simp [hname.2.1]
  rw [hid, pathNormalize_rel ([['.'], ("docs").toList, name]) ['.'] hprops
      (by rw [hkeptEq]; simp), hkeptEq]

theorem pathJoin_docs_init (name : Str) (init : List Str) (hname : cleanSeg name)
    (hinit : init ≠ []) (hcl : ∀ s ∈ init, cleanSeg s) :
    pathJoin [("./docs").toList, name, List.intercalate ['/'] init]
      = List.intercalate ['/'] (("docs").toList :: name :: init) := by
  have hiNe : List.intercalate ['/'] init ≠ [] :=
    @inter_ne_nil init hinit (fun s hs => (hcl s hs).1)
  rw [pathJoin_triple _ _ _ (by decide) hname.1 hiNe]
  obtain ⟨I, ib, rfl⟩ : ∃ I ib, init = I ++ [ib] := by
    rcases List.eq_nil_or_concat' init with hI | ⟨I, ib, hI⟩
    · exact absurd hI hinit
    · exact ⟨I, ib, hI⟩
  have hid : ("./docs").toList ++ '/' :: (name ++ '/' :: List.intercalate ['/'] (I ++ [ib]))
      = List.intercalate ['/'] (([['.'], ("docs").toList, name] ++ I) ++ [ib]) := by
    rw [show ([['.'], ("docs").toList, name] ++ I) ++ [ib]
          = [['.'], ("docs").toList, name] ++ (I ++ [ib]) by simp,
        inter_append [['.'], ("docs").toList, name] (I ++ [ib]) (by simp) (by simp),
        show ("./docs").toList = '.' :: '/' :: ("docs").toList by decide]
    simp [inter_cons_cons, inter_singleton]
  have hprops : ∀ s ∈ ([['.'], ("docs").toList, name] ++ I) ++ [ib],
      s ≠ [] ∧ '/' ∉ s ∧ s ≠ ['.', '.'] := by
    intro s hs
    simp only [List.mem_append, List.mem_cons, List.mem_singleton, List.not_mem_nil,
      or_false] at hs
    rcases hs with ((rfl | rfl | rfl) | hI) | rfl
    · exact ⟨by simp, by simp, by simp⟩
    · exact ⟨by decide, by decide, by decide⟩
    · exact ⟨hname.1, fun hm => (hname.2.2.2 '/' hm).1 rfl, hname.2.2.1⟩
    · have hc := hcl s (by simp [hI])
      exact ⟨hc.1, fun hm => (hc.2.2.2 '/' hm).1 rfl, hc.2.2.1⟩
    · have hc := hcl s (by simp)
      exact ⟨hc.1, fun hm => (hc.2.2.2 '/' hm).1 rfl, hc.2.2.1⟩
  have hfI : I.filter (fun s => decide (s ≠ ['.'])) = I :=
    List.filter_eq_self.mpr (fun s hs => by simp [(hcl s (by simp [hs])).2.1])
  have h1 : ([['.'], ("docs").toList, name] : List Str).filter
      (fun s => decide (s ≠ ['.'])) = [("docs").toList, name] := by
    simp [hname.2.1]
  have h2 : ([ib] : List Str).filter (fun s => decide (s ≠ ['.'])) = [ib] := by
    simp [(hcl ib (by simp)).2.1]
  have hkeptEq : (([['.'], ("docs").toList, name] ++ I) ++ [ib]).filter
      (fun s => decide (s ≠ ['.'])) = ("docs").toList :: name :: (I ++ [ib]) := by
    rw [List.filter_append, List.filter_append, h1, h2, hfI]
    simp
  rw [hid, pathNormalize_rel ([['.'], ("docs").toList, name] ++ I) ib hprops
      (by rw [hkeptEq]; simp), hkeptEq]

theorem pathJoin_dir_file (dsegs : List Str) (fn : Str)
    (hd : ∀ s ∈ dsegs, s ≠ [] ∧ '/' ∉ s ∧ s ≠ ['.'] ∧ s ≠ ['.', '.'])
    (h0 : dsegs ≠ [])
    (hfn : fn ≠ [] ∧ '/' ∉ fn ∧ fn ≠ ['.'] ∧ fn ≠ ['.', '.']) :
    pathJoin [List.intercalate ['/'] dsegs, fn] = List.intercalate ['/'] (dsegs ++ [fn]) := by
  have hdNe : List.intercalate ['/'] dsegs ≠ [] :=
    @inter_ne_nil dsegs h0 (fun s hs => (hd s hs).1)
  rw [pathJoin_pair _ _ hdNe hfn.1]
  have hid : List.intercalate ['/'] dsegs ++ '/' :: fn
      = List.intercalate ['/'] (dsegs ++ [fn]) := by
    rw [inter_append dsegs [fn] h0 (by simp), inter_singleton]
  have hprops : ∀ s ∈ dsegs ++ [fn], s ≠ [] ∧ '/' ∉ s ∧ s ≠ ['.', '.'] := by
    intro s hs
    rcases List.mem_append.mp hs with hs1 | hs2
    · exact ⟨(hd s hs1).1, (hd s hs1).2.1, (hd s hs1).2.2.2⟩
    · have : s = fn := by simpa using hs2
      subst this
      exact ⟨hfn.1, hfn.2.1, hfn.2.2.2⟩
  have hkeptEq : (dsegs ++ [fn]).filter (fun s => decide (s ≠ ['.'])) = dsegs ++ [fn] :=
    List.filter_eq_self.mpr (fun s hs => by
      rcases List.mem_append.mp hs with hs1 | hs2
      · simp [(hd s hs1).2.2.1]
      · have : s = fn := by simpa using hs2
        subst this
        simp [hfn.2.2.1])
  rw [hid, pathNormalize_rel dsegs fn hprops (by rw [hkeptEq]; simp), hkeptEq]

/-- C9 (amended).  For a run whose base URL is `https://<host>/<bsegs>` and a
target `https://<host>/<usegs>` built from clean path segments, the artifact
path computed by `getFilePath` is
`docs/<name>/<path.join(basePath, urlPath)>.md`, i.e.
`docs/<name>/<bsegs ++ usegs>.md`: the base URL pathname is prepended to the
target URL full pathname (duplicating the base path whenever it is
non-root), not the path of the target relative to the base; the file is
named `index.md` exactly when the joined path is empty (origin-root base and
root target).  Moreover `saveContent` writes the fetched content at exactly
that path on a fresh filesystem. -/
theorem C9_joined_path_formula (host name : Str) (bsegs usegs : List Str)
    (hhost : host ≠ [] ∧ ∀ c ∈ host, c ≠ '/' ∧ c ≠ '?' ∧ c ≠ '#')
    (hname : cleanSeg name)
    (hb : ∀ s ∈ bsegs, cleanSeg s) (hu : ∀ s ∈ usegs, cleanSeg s) :
    getFilePath name (mkAbsUrl host bsegs) (mkAbsUrl host usegs)
      = some (("docs/").toList ++ name ++ '/' ::
          (if bsegs ++ usegs = [] then ("index.md").toList
           else List.intercalate ['/'] (bsegs ++ usegs) ++ (".md").toList))
    ∧ ∀ (content : Str),
        saveContent name (mkAbsUrl host bsegs) (mkAbsUrl host usegs) content []
          = [(("docs/").toList ++ name ++ '/' ::
              (if bsegs ++ usegs = [] then ("index.md").toList
               else List.intercalate ['/'] (bsegs ++ usegs) ++ (".md").toList), content)] := by
  have hpb := parseUrl_mkAbsUrl host bsegs hhost.1 hhost.2 hb
  have hpu := parseUrl_mkAbsUrl host usegs hhost.1 hhost.2 hu
  have hres := resolveUrl_of_parseUrl
      (⟨("https").toList, host, '/' :: List.intercalate ['/'] bsegs, [], []⟩ : JsUrl) hpu
  have hrel : stripLeadingSlash (pathJoin ['/' :: List.intercalate ['/'] bsegs,
        '/' :: List.intercalate ['/'] usegs])
      = List.intercalate ['/'] (bsegs ++ usegs)
        ++ (if usegs = [] ∧ bsegs ≠ [] then ['/'] else []) := by
    rw [pathJoin_pair_abs bsegs usegs hb hu,
        show '/' :: List.intercalate ['/'] (bsegs ++ usegs)
            ++ (if usegs = [] ∧ bsegs ≠ [] then ['/'] else [])
          = '/' :: (List.intercalate ['/'] (bsegs ++ usegs)
            ++ (if usegs = [] ∧ bsegs ≠ [] then ['/'] else [])) from rfl,
        stripLeadingSlash_cons]
  have hgfp : getFilePath name (mkAbsUrl host bsegs) (mkAbsUrl host usegs)
      = some (("docs/").toList ++ name ++ '/' ::
          (if bsegs ++ usegs = [] then ("index.md").toList
           else List.intercalate ['/'] (bsegs ++ usegs) ++ (".md").toList)) := by
    simp only [getFilePath, Option.bind_eq_bind, hpb, Option.some_bind, hres, Option.pure_def,
      hrel]
    rcases List.eq_nil_or_concat' (bsegs ++ usegs) with hall | ⟨init, lastSeg, hconcat⟩
    · have hb0 : bsegs = [] := (List.append_eq_nil.mp hall).1
      have hu0 : usegs = [] := (List.append_eq_nil.mp hall).2
      subst hb0
      subst hu0
      have hrelnil : List.intercalate ['/'] (([] : List Str) ++ ([] : List Str))
          ++ (if ([] : List Str) = [] ∧ ([] : List Str) ≠ [] then ['/'] else []) = [] := by
        decide
      rw [hrelnil, show dirname [] = ['.'] from rfl, show basename [] = ([] : Str) from rfl,
          if_pos rfl, pathJoin_docs_dot name hname,
          pathJoin_dir_file [("docs").toList, name] (("index").toList ++ (".md").toList)
            (by
              intro s hs
              simp only [List.mem_cons, List.not_mem_nil, or_false] at hs
              rcases hs with rfl | rfl
              · exact ⟨by decide, by decide, by decide, by decide⟩
              · exact ⟨hname.1, fun hm => ((hname.2.2.2 '/' hm).1 rfl), hname.2.1,
                  hname.2.2.1⟩)
            (by simp) (by refine ⟨by decide, by decide, by decide, by decide⟩)]
      simp [inter_cons_cons, inter_singleton,
        show ("docs/").toList = ("docs").toList ++ ['/'] from by decide,
        show ("index.md").toList = ("index").toList ++ (".md").toList from by decide]
    · have hclean : ∀ s ∈ init ++ [lastSeg], cleanSeg s := by
        intro s hs
        have hs2 : s ∈ bsegs ++ usegs := by
          rw [hconcat]
          exact hs
        rcases List.mem_append.mp hs2 with h1 | h2
        · exact hb s h1
        · exact hu s h2
      have hT : (if usegs = [] ∧ bsegs ≠ [] then (['/'] : Str) else []) = []
          ∨ (if usegs = [] ∧ bsegs ≠ [] then (['/'] : Str) else []) = ['/'] := by
        by_cases hc : usegs = [] ∧ bsegs ≠ []
        · right
          rw [if_pos hc]
        · left
          rw [if_neg hc]
      have hprops2 : ∀ s ∈ init ++ [lastSeg], s ≠ [] ∧ '/' ∉ s := fun s hs =>
        ⟨(hclean s hs).1, fun hm => ((hclean s hs).2.2.2 '/' hm).1 rfl⟩
      have hbase := basename_clean init lastSeg
        (if usegs = [] ∧ bsegs ≠ [] then ['/'] else []) hprops2 hT
      have hdir := dirname_clean init lastSeg
        (if usegs = [] ∧ bsegs ≠ [] then ['/'] else []) hprops2 hT
      have hlastc := hclean lastSeg (by simp)
      have hfnprops : lastSeg ++ (".md").toList ≠ [] ∧ '/' ∉ lastSeg ++ (".md").toList
          ∧ lastSeg ++ (".md").toList ≠ ['.'] ∧ lastSeg ++ (".md").toList ≠ ['.', '.'] := by
        refine ⟨by simp, ?_, ?_, ?_⟩
        · intro hm
          rcases List.mem_append.mp hm with h1 | h2
          · exact ((hlastc.2.2.2 '/' h1).1 rfl)
          · exact absurd h2 (by decide)
        · intro hEq
          have hlen := congrArg List.length hEq
          rw [List.length_append, show ((".md").toList).length = 3 from by decide,
              show (['.'] : Str).length = 1 from rfl] at hlen
          omega
        · intro hEq
          have hlen := congrArg List.length hEq
          rw [List.length_append, show ((".md").toList).length = 3 from by decide,
              show (['.', '.'] : Str).length = 2 from rfl] at hlen
          omega
      rw [hconcat, hbase, hdir, if_neg hlastc.1, if_neg (by simp : ¬init ++ [lastSeg] = [])]
      by_cases hinit : init = []
      · subst hinit
        rw [if_pos rfl, pathJoin_docs_dot name hname,
            pathJoin_dir_file [("docs").toList, name] (lastSeg ++ (".md").toList)
              (by
                intro s hs
                simp only [List.mem_cons, List.not_mem_nil, or_false] at hs
                rcases hs with rfl | rfl
                · exact ⟨by decide, by decide, by decide, by decide⟩
                · exact ⟨hname.1, fun hm => ((hname.2.2.2 '/' hm).1 rfl), hname.2.1,
                    hname.2.2.1⟩)
              (by simp) hfnprops]
        simp [inter_cons_cons, inter_singleton,
          show ("docs/").toList = ("docs").toList ++ ['/'] from by decide]
      · rw [if_neg hinit,
            pathJoin_docs_init name init hname hinit (fun s hs => hclean s (by simp [hs])),
            pathJoin_dir_file (("docs").toList :: name :: init) (lastSeg ++ (".md").toList)
              (by
                intro s hs
                simp only [List.mem_cons] at hs
                rcases hs with rfl | rfl | hI
                · exact ⟨by decide, by decide, by decide, by decide⟩
                · exact ⟨hname.1, fun hm => ((hname.2.2.2 '/' hm).1 rfl), hname.2.1,
                    hname.2.2.1⟩
                · have hc := hclean s (by simp [hI])
                  exact ⟨hc.1, fun hm => ((hc.2.2.2 '/' hm).1 rfl), hc.2.1, hc.2.2.1⟩)
              (by simp) hfnprops]
        rw [show (("docs").toList :: name :: init) ++ [lastSeg ++ (".md").toList]
              = [("docs").toList, name] ++ (init ++ [lastSeg ++ (".md").toList]) from by simp,
            inter_append [("docs").toList, name] (init ++ [lastSeg ++ (".md").toList])
              (by simp) (by simp),
            inter_concat_suffix init lastSeg ((".md").toList)]
        simp [inter_cons_cons, inter_singleton,
          show ("docs/").toList = ("docs").toList ++ ['/'] from by decide]
  refine ⟨hgfp, fun content => ?_⟩
  simp [saveContent, hgfp, fsGet]

/-- Witness for C9 (amended): base `https://example.com/docs` and target
`https://example.com/docs/guide` persist at `docs/proj/docs/docs/guide.md`,
exhibiting the duplicated `docs` path component. -/
theorem C9_joined_path_formula_witness :
    getFilePath ("proj").toList (mkAbsUrl ("example.com").toList [("docs").toList])
        (mkAbsUrl ("example.com").toList [("docs").toList, ("guide").toList])
      = some (("docs/proj/docs/docs/guide.md").toList) := by
  have h := (C9_joined_path_formula ("example.com").toList ("proj").toList
      [("docs").toList] [("docs").toList, ("guide").toList]
      (by decide) (by decide) (by decide) (by decide)).1
  rw [h]
  decide

/-- C10.  For every base URL and every pair of target URL strings that parse
to the same scheme, host and pathname — i.e. they differ only in query
string and/or fragment — `getFilePath` returns the same artifact path (only
the pathname influences the persisted location); and because `saveContent`
skips the write when a file already exists at that path, after fetching and
saving both targets in either order the content saved first is the one that
remains on disk. -/
theorem C10_path_ignores_query_fragment :
    ∀ (name baseUrl url1 url2 : Str) (u1 u2 : JsUrl),
      parseUrl url1 = some u1 → parseUrl url2 = some u2 →
      u1.scheme = u2.scheme → u1.host = u2.host → u1.pathname = u2.pathname →
      getFilePath name baseUrl url1 = getFilePath name baseUrl url2
      ∧ ∀ (content1 content2 : Str) (fs : Fs) (p : Str),
          getFilePath name baseUrl url1 = some p → fsGet fs p = none →
          fsGet (saveContent name baseUrl url2 content2
              (saveContent name baseUrl url1 content1 fs)) p = some content1 := by
  intro name baseUrl url1 url2 u1 u2 h1 h2 hs hh hp
  have hgf : getFilePath name baseUrl url1 = getFilePath name baseUrl url2 := by
    simp only [getFilePath, Option.bind_eq_bind]
    cases hpb : parseUrl baseUrl with
    | none => rfl
    | some b =>
      simp only [Option.some_bind, resolveUrl_of_parseUrl b h1, resolveUrl_of_parseUrl b h2,
        hp]
  refine ⟨hgf, fun content1 content2 fs p hp1 hnone => ?_⟩
  have hsave1 : saveContent name baseUrl url1 content1 fs = (p, content1) :: fs := by
    simp only [saveContent, hp1, hnone]
  have hget1 : fsGet ((p, content1) :: fs) p = some content1 := by
    simp [fsGet]
  have hp2 : getFilePath name baseUrl url2 = some p := by
    rw [← hgf]
    exact hp1
  have hsave2 : saveContent name baseUrl url2 content2 ((p, content1) :: fs)
      = (p, content1) :: fs := by
    simp only [saveContent, hp2, hget1]
  rw [hsave1, hsave2]
  exact hget1

/-- Witness for C10: the targets `https://example.com/a?x=1` and
`https://example.com/a#frag` share the artifact path `docs/proj/a.md`, and
after saving both the first-fetched content is the one on disk. -/
theorem C10_path_ignores_query_fragment_witness :
    getFilePath ("proj").toList ("https://example.com").toList
        ("https://example.com/a?x=1").toList
      = getFilePath ("proj").toList ("https://example.com").toList
        ("https://example.com/a#frag").toList
    ∧ fsGet (saveContent ("proj").toList ("https://example.com").toList
          ("https://example.com/a#frag").toList ("second").toList
          (saveContent ("proj").toList ("https://example.com").toList
            ("https://example.com/a?x=1").toList ("first").toList []))
        (("docs/proj/a.md").toList) = some (("first").toList) := by
  have h := C10_path_ignores_query_fragment ("proj").toList
      ("https://example.com").toList
      ("https://example.com/a?x=1").toList ("https://example.com/a#frag").toList
      ⟨("https").toList, ("example.com").toList, ("/a").toList, ("?x=1").toList, []⟩
      ⟨("https").toList, ("example.com").toList, ("/a").toList, [], ("#frag").toList⟩
      (by decide) (by decide) (by decide) (by decide) (by decide)
  exact ⟨h.1, h.2 ("first").toList ("second").toList [] (("docs/proj/a.md").toList)
      (by decide) (by decide)⟩

end Crawler
